import Mathlib

/-!
# nix-bundle-proot: the archive extractor and the sandbox launcher of `main.go`

A shallow embedding of `main.go`.  Go strings are lists of characters, byte
slices are lists of naturals, `int64` header fields are integers, and every
function that touches the file system threads an explicit state.

The standard-library functions the program calls (`strings.HasPrefix`,
`filepath.Clean`, `filepath.Join`, `os.OpenFile`, `exec.Cmd.Wait`, ...) are
modelled after the Go sources for Unix; each such definition says so.

The extractor `unpackTarGz` is defined over any implementation of the `os`
calls it makes (`OsCalls`).  The implementation used to evaluate it is a model
file system `FS`: nodes are kept under their real names, path names are
resolved as the kernel does, following symlinks, and a failed call leaves the
state as it was.  The calls that create nodes make no access checks and the
process umask is not applied; `os.RemoveAll` checks the owner permission bits
of the directories it has to list and change, and can fail.  The child process,
while it runs, may change the file system in any way (`Host.childFs`).
-/

namespace ProotBundle

/-! ## Strings and lexical paths (Go standard library, Unix) -/

/-- A Go string, as the sequence of its (ASCII) bytes. -/
abbrev Str := List Char

/-- Go `strings.HasPrefix(s, pre)`. -/
def HasPrefix (s pre : Str) : Bool := pre.isPrefixOf s

/-- Go `strings.HasSuffix(s, suffix)`. -/
def HasSuffix (s suffix : Str) : Bool := suffix.isSuffixOf s

/-- Go `filepath.HasPrefix(p, pre)` on Unix: `return strings.HasPrefix(p, pre)`.
It is a test on the raw bytes and does not respect path boundaries. -/
def filepathHasPrefix (p pre : Str) : Bool := HasPrefix p pre

/-- Go `os.IsPathSeparator` on Unix. -/
def isSep (c : Char) : Bool := c == '/'

/-- The lookahead `r+k == n || os.IsPathSeparator(path[r+k])` of `filepath.Clean`,
on the part of the path that is left from position `r+k` on. -/
def sepOrEnd : Str → Bool
  | [] => true
  | c :: _ => isSep c

/-- The backtracking loop of `filepath.Clean` on a `..` element,
`for out.w > dotdot && !os.IsPathSeparator(out.index(out.w)) { out.w-- }`,
started at `out.w = w`; the result is the final `out.w`. -/
def backtrack (out : Str) (dotdot : Nat) : Nat → Nat
  | 0 => 0
  | w + 1 =>
    if dotdot < w + 1 && !isSep (out.getD (w + 1) '/') then backtrack out dotdot w else w + 1

/-- The main loop `for r < n` of `filepath.Clean`.  The arguments are the loop
budget (one unit per iteration), the unread part `path[r:]`, the bytes written
so far `out` (the buffer up to `out.w`) and `dotdot`.  The result is the final
buffer and `dotdot`. -/
def cleanLoop (rooted : Bool) : Nat → Str → Str → Nat → Str × Nat
  | 0, _, out, dotdot => (out, dotdot)
  | _ + 1, [], out, dotdot => (out, dotdot)
  | fuel + 1, c :: rest, out, dotdot =>
    if isSep c then
      -- empty path element
      cleanLoop rooted fuel rest out dotdot
    else if c == '.' && sepOrEnd rest then
      -- . element
      cleanLoop rooted fuel rest out dotdot
    else if c == '.' && rest.head? == some '.' && sepOrEnd rest.tail then
      -- .. element: remove to last separator
      if dotdot < out.length then
        cleanLoop rooted fuel rest.tail (out.take (backtrack out dotdot (out.length - 1))) dotdot
      else if !rooted then
        let out1 := if 0 < out.length then out ++ ['/'] else out
        let out2 := out1 ++ ['.', '.']
        cleanLoop rooted fuel rest.tail out2 out2.length
      else
        cleanLoop rooted fuel rest.tail out dotdot
    else
      -- real path element: add slash if needed, copy element
      let out1 :=
        if (rooted && out.length != 1) || (!rooted && out.length != 0) then out ++ ['/'] else out
      cleanLoop rooted fuel ((c :: rest).dropWhile (fun d => !isSep d))
        (out1 ++ (c :: rest).takeWhile (fun d => !isSep d)) dotdot

/-- Go `filepath.Clean` on Unix (no volume name).  Every iteration of the main
loop reads at least one byte, so `path.length` iterations always suffice. -/
def Clean (path : Str) : Str :=
  match path with
  | [] => ['.']
  | c :: rest =>
    let rooted := isSep c
    let st := if rooted then cleanLoop rooted path.length rest ['/'] 1
              else cleanLoop rooted path.length path [] 0
    if st.1.length = 0 then ['.'] else st.1

/-- Go `strings.Join(elems, sep)`. -/
def stringsJoin (elems : List Str) (sep : Str) : Str := sep.intercalate elems

/-- Go `filepath.Join(elem...)` on Unix: the elements from the first non-empty
one on are joined with `/` and cleaned; the result is empty when all are. -/
def Join : List Str → Str
  | [] => []
  | e :: es => if e ≠ [] then Clean (stringsJoin (e :: es) ['/']) else Join es

/-! ### Component-wise containment (the notion the specification uses) -/

/-- The pieces of a string between its `/` separators. -/
def splitSlash : Str → List Str
  | [] => [[]]
  | c :: cs =>
    if isSep c then [] :: splitSlash cs
    else
      match splitSlash cs with
      | [] => [[c]]
      | h :: t => (c :: h) :: t

/-- The path components of a string: the non-empty pieces other than `.`. -/
def components (p : Str) : List Str :=
  (splitSlash p).filter (fun c => c ≠ [] ∧ c ≠ ['.'])

/-- The components remaining after a leading list of components is removed. -/
def stripComponents : List Str → List Str → Option (List Str)
  | [], q => some q
  | _ :: _, [] => none
  | a :: as, b :: bs => if a = b then stripComponents as bs else none

/-- Go `filepath.IsAbs` on Unix: `strings.HasPrefix(path, "/")`. -/
def IsAbs (path : Str) : Bool := HasPrefix path ['/']

/-- Component-wise containment of a normalized path `target` in the directory
`base`: both are rooted or both are not, the components of the cleaned `base`
lead the components of `target`, and what follows them never steps up. -/
def isWithin (base target : Str) : Bool :=
  IsAbs (Clean base) == IsAbs target &&
  match stripComponents (components (Clean base)) (components target) with
  | some rest => !rest.contains ['.', '.']
  | none => false

/-! ## Archive data model (`archive/tar`) -/

/-- The fields of `tar.Header` the program reads. -/
structure Header where
  Typeflag : Char
  Name : Str
  Linkname : Str
  Mode : Int
deriving DecidableEq

/-- Go `tar.TypeReg`. -/
def TypeReg : Char := '0'

/-- Go `tar.TypeLink` (hard link). -/
def TypeLink : Char := '1'

/-- Go `tar.TypeSymlink`. -/
def TypeSymlink : Char := '2'

/-- Go `tar.TypeDir`. -/
def TypeDir : Char := '5'

/-- Go `tar.TypeFifo`. -/
def TypeFifo : Char := '6'

/-- What `ProcessState` reports about a terminated child. -/
inductive ProcessState where
  | exited (code : Nat)
  | signaled (sig : Nat)
deriving DecidableEq

/-- Kernel error numbers the file-system model reports. -/
inductive Errno where
  | EEXIST
  | ENOENT
  | ENOTDIR
  | EISDIR
  | ELOOP
  | EACCES
  | EINVAL
deriving DecidableEq

/-- The `error` values that flow through the program. -/
inductive Err where
  /-- an error reported by a reader: `gzip.NewReader`, `tar.Reader.Next`, `io.Copy` -/
  | read (msg : Str)
  /-- `errors.New("malformed rootfs.tar.gz, layer.tar not found")` -/
  | layerNotFound
  /-- `fmt.Errorf("file points outside of target directory %s -> %s", targetPath, dstDir)` -/
  | pathEscape (targetPath dstDir : Str)
  /-- `fmt.Errorf("symbolic link points outside of target directory: ...")` -/
  | linkEscape (linkDest dstDir targetPath link : Str)
  /-- `fmt.Errorf("file untar not supported %v", header)` -/
  | unsupported (hdr : Header)
  /-- an `*os.PathError` or `*os.LinkError` -/
  | os (errno : Errno) (path : Str)
  /-- an `*exec.ExitError` carrying the child's `ProcessState` -/
  | exit (st : ProcessState)
  /-- the context error `context.Canceled` -/
  | canceled
  /-- any other error of an external call (`os.MkdirTemp`, `memexec.New`, `cmd.Start`) -/
  | other (msg : Str)
deriving DecidableEq

/-- One record of a tar stream as `tar.Reader` delivers it: the header, the
content bytes that can be read before the next header, and the error (if any)
that reading the content ends with instead of `io.EOF`. -/
structure Entry where
  hdr : Header
  body : List Nat
  bodyErr : Option Err
deriving DecidableEq

/-- A tar stream as seen through `tar.Reader.Next`: the entries delivered, then
either `io.EOF` (`tail = none`) or a read error. -/
structure TarStream where
  entries : List Entry
  tail : Option Err
deriving DecidableEq

/-- A record of the outer stream.  Its content is held the way the program
consumes it, through `tar.NewReader(tarReaderRoot)`: as a tar stream. -/
structure OuterEntry where
  hdr : Header
  body : TarStream
deriving DecidableEq

/-- The argument `tarContent` as seen through `gzip.NewReader` and
`tar.NewReader`: either `gzip.NewReader` fails, or the outer stream delivers
entries and then ends with `io.EOF` (`tail = none`) or with a read error. -/
inductive TarGz where
  | invalid (e : Err)
  | stream (entries : List OuterEntry) (tail : Option Err)
deriving DecidableEq

/-! ## File-system state and the `os` calls -/

/-- A node of the file system.  `perm` holds the mode bits passed to the system
call that created the node (the process umask is not modelled). -/
inductive Node where
  | dir (perm : Nat)
  | file (perm : Nat) (data : List Nat)
  | symlink (target : Str)
deriving DecidableEq

/-- The file system: the nodes under their real path names, that is, cleaned
names on which no symlink lies.  Path names given to the `os` calls are
resolved to real names by `lookupPath`, which follows symlinks as the kernel
does. -/
abbrev FS := List (Str × Node)

/-- The node stored under a real path name. -/
def FS.get (fs : FS) (path : Str) : Option Node := fs.lookup path

/-- Store a node under a real path name, replacing what was there. -/
def FS.put (fs : FS) (path : Str) (n : Node) : FS :=
  (path, n) :: fs.filter (fun kv => kv.1 ≠ path)

/-- The directory that holds `path`, lexically. -/
def parentOf (path : Str) : Str := Clean (path ++ ['/', '.', '.'])

/-- What a path name resolves to: an existing node under its real name; a name
that does not exist yet in an existing directory, with the real name it would
get; or an error. -/
inductive Resolved where
  | found (real : Str) (n : Node)
  | missing (real : Str)
  | fail (errno : Errno)
deriving DecidableEq

/-- The result of walking path components down from a directory: resolved, or
stopped at a symlink found in directory `dir` with link text `target`, with the
components `rest` still to walk. -/
inductive Walk where
  | done (r : Resolved)
  | link (dir : Str) (target : Str) (rest : List Str)
deriving DecidableEq

/-- The kernel's walk of path components from the directory with real name
`cur`, up to the first symlink that has to be followed.  A symlink in the last
position is followed only when `follow` is set; `..` steps to the parent of the
directory reached. -/
def walkComps (fs : FS) (follow : Bool) : Str → List Str → Walk
  | cur, [] =>
    match fs.get cur with
    | some n => .done (.found cur n)
    | none => .done (.fail .ENOENT)
  | cur, c :: cs =>
    match fs.get cur with
    | some (.dir _) =>
      let next := if c = ['.', '.'] then parentOf cur else Join [cur, c]
      match fs.get next with
      | none => if cs = [] then .done (.missing next) else .done (.fail .ENOENT)
      | some (.symlink t) =>
        if cs = [] && !follow then .done (.found next (.symlink t)) else .link cur t cs
      | some _ => walkComps fs follow next cs
    | some _ => .done (.fail .ENOTDIR)
    | none => .done (.fail .ENOENT)

/-- Path resolution with at most `n` more symlinks to follow: the text of a
symlink is walked from the root when it is absolute and from the directory
that holds the link otherwise; one symlink too many is `ELOOP`. -/
def resolve (fs : FS) (follow : Bool) : Nat → Str → List Str → Resolved
  | 0, cur, comps =>
    match walkComps fs follow cur comps with
    | .done r => r
    | .link _ _ _ => .fail .ELOOP
  | n + 1, cur, comps =>
    match walkComps fs follow cur comps with
    | .done r => r
    | .link dir t rest =>
      if t = [] then .fail .ENOENT
      else resolve fs follow n (if IsAbs t then ['/'] else dir) (components t ++ rest)

/-- Resolution of a path name as the kernel does it for a system call: from the
root for an absolute name and from the working directory `.` otherwise,
following at most 40 symlinks (Linux `MAXSYMLINKS`). -/
def lookupPath (fs : FS) (follow : Bool) (path : Str) : Resolved :=
  if path = [] then .fail .ENOENT
  else resolve fs follow 40 (if IsAbs path then ['/'] else ['.']) (components path)

/-- Go `os.FileMode(header.Mode)`: the conversion of an `int64` to `uint32`. -/
def FileMode (mode : Int) : Nat := (mode % 4294967296).toNat

/-- Go `syscallMode(perm)`: the mode bits the `os` calls pass to the kernel, the
nine permission bits and the setuid, setgid and sticky bits of `os.FileMode`. -/
def syscallMode (perm : Nat) : Nat :=
  (perm &&& 511) ||| (if perm &&& 8388608 ≠ 0 then 2048 else 0) |||
    (if perm &&& 4194304 ≠ 0 then 1024 else 0) ||| (if perm &&& 1048576 ≠ 0 then 512 else 0)

/-- Go `os.O_RDWR` (Linux). -/
def O_RDWR : Nat := 2

/-- Go `os.O_CREATE` (Linux). -/
def O_CREATE : Nat := 64

/-- Go `os.O_TRUNC` (Linux). -/
def O_TRUNC : Nat := 512

/-- Go `os.Symlink(oldname, newname)`: the name `newname` is resolved without
following a symlink in its last position; the call fails when it exists and
otherwise stores the link text `oldname` as it is. -/
def Symlink (oldname newname : Str) (fs : FS) : Except Err FS :=
  if oldname = [] then .error (.os .ENOENT newname)
  else
    match lookupPath fs false newname with
    | .found _ _ => .error (.os .EEXIST newname)
    | .missing real => .ok (fs.put real (.symlink oldname))
    | .fail errno => .error (.os errno newname)

/-- Go `os.Mkdir(name, perm)`: fails when `name` exists, also as a symlink. -/
def Mkdir (name : Str) (perm : Nat) (fs : FS) : Except Err FS :=
  match lookupPath fs false name with
  | .found _ _ => .error (.os .EEXIST name)
  | .missing real => .ok (fs.put real (.dir (syscallMode perm)))
  | .fail errno => .error (.os errno name)

/-- The path name made of the given components. -/
def pathOf (rooted : Bool) (comps : List Str) : Str :=
  (if rooted then ['/'] else []) ++ ['/'].intercalate comps

/-- The recursion of Go `os.MkdirAll` on a path given by its components, last
one first: done when `os.Stat` finds a directory, an error when it finds
something else; otherwise the parent is made first, then `os.Mkdir` is called,
and its error stands unless `os.Lstat` finds a directory. -/
def mkdirAllRev (rooted : Bool) (perm : Nat) : List Str → FS → Except Err FS
  | [], fs => .ok fs
  | c :: rrest, fs =>
    match lookupPath fs true (pathOf rooted (c :: rrest).reverse) with
    | .found _ (.dir _) => .ok fs
    | .found _ _ => .error (.os .ENOTDIR (pathOf rooted (c :: rrest).reverse))
    | _ =>
      match mkdirAllRev rooted perm rrest fs with
      | .error err => .error err
      | .ok fs1 =>
        match Mkdir (pathOf rooted (c :: rrest).reverse) perm fs1 with
        | .ok fs2 => .ok fs2
        | .error err =>
          match lookupPath fs1 false (pathOf rooted (c :: rrest).reverse) with
          | .found _ (.dir _) => .ok fs1
          | _ => .error err

/-- Go `os.MkdirAll(path, perm)`: creates `path` and every missing ancestor
with mode `perm`; succeeds without change when `path` is a directory, also
through symlinks. -/
def MkdirAll (path : Str) (perm : Nat) (fs : FS) : Except Err FS :=
  if path = [] then .error (.os .ENOENT path)
  else mkdirAllRev (IsAbs path) perm (components path).reverse fs

/-- Go `os.OpenFile(name, flag, perm)` for a flag set that includes `O_RDWR`:
the real name of the file opened, and the file system after the call.  Symlinks
are followed, also in the last position.  An existing regular file is opened,
and emptied only when `flag` has `O_TRUNC`; a missing file is created with
`perm` only when `flag` has `O_CREATE`. -/
def OpenFile (name : Str) (flag perm : Nat) (fs : FS) : Except Err (Str × FS) :=
  match lookupPath fs true name with
  | .found real (.file p _) =>
    if flag &&& O_TRUNC ≠ 0 then .ok (real, fs.put real (.file p [])) else .ok (real, fs)
  | .found _ (.dir _) => .error (.os .EISDIR name)
  | .found _ (.symlink _) => .error (.os .ELOOP name)
  | .missing real =>
    if flag &&& O_CREATE ≠ 0 then .ok (real, fs.put real (.file (syscallMode perm) []))
    else .error (.os .ENOENT name)
  | .fail errno => .error (.os errno name)

/-- Go `io.Copy(outputFile, r)` into the file just opened under the real name
`file`: the bytes are written from offset 0 on, over what the file holds; bytes
of the file beyond the written length stay. -/
def ioCopy (file : Str) (bytes : List Nat) (fs : FS) : FS :=
  match fs.get file with
  | some (.file p data) => fs.put file (.file p (bytes ++ data.drop bytes.length))
  | _ => fs

/-- Whether a real name is `path` or lies below it. -/
def inTree (path k : Str) : Bool := k == path || HasPrefix k (path ++ ['/'])

/-- Whether the node under the real name `k` is a directory whose mode has all
of the permission bits `bits`.  Access is decided on the owner bits (read 0400,
write 0200, search 0100): the launcher is taken to own the directories. -/
def dirHas (fs : FS) (k : Str) (bits : Nat) : Bool :=
  match fs.get k with
  | some (.dir p) => p &&& bits == bits
  | _ => false

/-- Go `endsWithDot(path)`, the test of `os.RemoveAll` for a path whose last
element is `.`. -/
def endsWithDot (path : Str) : Bool := path == ['.'] || HasSuffix path ['/', '.']

/-- Whether `os.RemoveAll(path)` gets to the entry `k` of the tree and can
unlink it from its directory: the superuser always can; otherwise the
directory that holds `k` must be writable and searchable, and to get to an
entry below `path` the directory that holds `path` and every directory of the
tree above the entry must be readable and searchable, to be opened and
listed. -/
def canUnlink (root : Bool) (fs : FS) (path k : Str) : Bool :=
  root ||
    ((k == path || dirHas fs (parentOf path) 320) &&
      fs.all (fun kv =>
        !(inTree path kv.1 && HasPrefix k (kv.1 ++ ['/'])) ||
          (match kv.2 with
            | .dir p => p &&& 320 == 320
            | _ => false)) &&
      dirHas fs (parentOf k) 192)

/-- Whether `os.RemoveAll(path)` removes the entry `k`: it can unlink `k` and
everything below it, a directory being removed only once it is empty. -/
def removable (root : Bool) (fs : FS) (path k : Str) : Bool :=
  canUnlink root fs path k &&
    fs.all (fun kv => !HasPrefix kv.1 (k ++ ['/']) || canUnlink root fs path kv.1)

/-- The entry that the error of `os.RemoveAll` names, searched from `k` down:
where the directory `k` could be opened and an entry of it is left in `fs1`,
the error is the one of the first entry left; otherwise it is the error of
opening or unlinking `k` itself. -/
def firstLeft (fs fs1 : FS) : Nat → Str → Str
  | 0, k => k
  | n + 1, k =>
    if dirHas fs k 256 && dirHas fs (parentOf k) 64 then
      match fs1.find? (fun kv => kv.1 != k && parentOf kv.1 == k) with
      | some kv => firstLeft fs fs1 n kv.1
      | none => k
    else k

/-- Go `os.RemoveAll(path)` for the real name `path`: nothing is done for the
empty path, and a path that ends in `.` is refused; otherwise it removes what
it can of `path` and everything below it, without following symlinks, and
returns an error (`EACCES`) when something is left: the error of opening the
directory that holds `path` when that cannot be read, and else the first error
met on the way down. -/
def RemoveAll (root : Bool) (path : Str) (fs : FS) : FS × Option Err :=
  if path = [] then (fs, none)
  else if endsWithDot path then (fs, some (.os .EINVAL path))
  else
    let fs1 := fs.filter (fun kv => !(inTree path kv.1 && removable root fs path kv.1))
    (fs1,
      if fs1.any (fun kv => inTree path kv.1) then
        some (.os .EACCES
          (if dirHas fs (parentOf path) 256 then firstLeft fs fs1 fs1.length path
           else parentOf path))
      else none)

/-! ## The archive extractor: `unpackTarGz` -/

/-- The test the first loop of `unpackTarGz` applies to an outer header: a
regular file whose name ends with `/layer.tar`. -/
def isLayer (hdr : Header) : Prop :=
  hdr.Typeflag = TypeReg ∧ HasSuffix hdr.Name "/layer.tar".toList = true

instance (hdr : Header) : Decidable (isLayer hdr) := by
  unfold isLayer
  infer_instance

/-- The first loop of `unpackTarGz`: read the outer stream up to the first
regular-file entry whose name ends in `/layer.tar`, and open its content as the
nested stream. -/
def findLayer : List OuterEntry → Option Err → Except Err TarStream
  | [], none => .error .layerNotFound
  | [], some e => .error e
  | e :: es, tail =>
    if e.hdr.Typeflag ≠ TypeReg then findLayer es tail
    else if !HasSuffix e.hdr.Name "/layer.tar".toList then findLayer es tail
    else .ok e.body

/-- The `os` calls `unpackTarGz` makes, on a state `σ` of the operating system:
`os.Symlink`, `os.MkdirAll`, `os.OpenFile`, which gives the file opened, and
the writes of `io.Copy` to that file.  A call that returns an error leaves the
state as it was.  The extractor is defined over any implementation of the
calls; the one for `FS` is the model file system. -/
class OsCalls (σ : Type) where
  Symlink : Str → Str → σ → Except Err σ
  MkdirAll : Str → Nat → σ → Except Err σ
  OpenFile : Str → Nat → Nat → σ → Except Err (Str × σ)
  Write : Str → List Nat → σ → σ × Option Err

instance modelOs : OsCalls FS where
  Symlink := Symlink
  MkdirAll := MkdirAll
  OpenFile := OpenFile
  Write := fun file bytes fs => (ioCopy file bytes fs, none)

/-- One iteration of the second loop of `unpackTarGz`, for the entry `e`: the
state after it, and the error it returns with, if any.  `io.Copy` ends with the
error of a write or else with the error of reading the content. -/
def extractEntry {σ : Type} [OsCalls σ] (dstDir : Str) (e : Entry) (fs : σ) : σ × Option Err :=
  let targetPath := Join [dstDir, e.hdr.Name]
  -- Verify that the target path is within the expected directory
  if !filepathHasPrefix (Clean targetPath) (Clean dstDir) then
    (fs, some (.pathEscape targetPath dstDir))
  else if e.hdr.Typeflag = TypeSymlink then
    let linkDest := Join [targetPath, e.hdr.Linkname]
    if !filepathHasPrefix (Clean linkDest) (Clean dstDir) then
      (fs, some (.linkEscape linkDest dstDir targetPath e.hdr.Linkname))
    else
      match OsCalls.Symlink e.hdr.Linkname targetPath fs with
      | .error err => (fs, some err)
      | .ok fs1 => (fs1, none)
  else if e.hdr.Typeflag = TypeDir then
    match OsCalls.MkdirAll targetPath (FileMode e.hdr.Mode) fs with
    | .error err => (fs, some err)
    | .ok fs1 => (fs1, none)
  else if e.hdr.Typeflag = TypeReg then
    match OsCalls.OpenFile targetPath (O_CREATE ||| O_RDWR) (FileMode e.hdr.Mode) fs with
    | .error err => (fs, some err)
    | .ok (outputFile, fs1) =>
      match OsCalls.Write outputFile e.body fs1 with
      | (fs2, some err) => (fs2, some err)
      | (fs2, none) => (fs2, e.bodyErr)
  else
    (fs, some (.unsupported e.hdr))

/-- The second loop of `unpackTarGz` over the nested stream: entries are
handled in stream order and the first error ends the extraction. -/
def extractEntries {σ : Type} [OsCalls σ] (dstDir : Str) :
    List Entry → Option Err → σ → σ × Option Err
  | [], tail, fs => (fs, tail)
  | e :: es, tail, fs =>
    match extractEntry dstDir e fs with
    | (fs1, some err) => (fs1, some err)
    | (fs1, none) => extractEntries dstDir es tail fs1

/-- The function `unpackTarGz(tarContent, dstDir)`: the state it leaves and the
error it returns (`none` for `nil`). -/
def unpackTarGz {σ : Type} [OsCalls σ] (tarContent : TarGz) (dstDir : Str) (fs : σ) :
    σ × Option Err :=
  match tarContent with
  | .invalid e => (fs, some e)
  | .stream entries tail =>
    match findLayer entries tail with
    | .error e => (fs, some e)
    | .ok layer => extractEntries dstDir layer.entries layer.tail fs

/-! ## The sandbox launcher: `run` and `main` -/

/-- The signals the launcher can send to its child. -/
inductive Signal where
  | SIGINT
  | SIGTERM
  | SIGKILL
deriving DecidableEq

/-- Whether a signal is a request the child can handle (a graceful termination
request) rather than the forcible kill. -/
def Signal.graceful : Signal → Bool
  | .SIGKILL => false
  | _ => true

/-- The fields of `exec.Cmd` that matter here.  `Args` holds the arguments after
the program name, `WaitDelay` is a `time.Duration` in nanoseconds, and `Cancel`
is the signal the function stored in `cmd.Cancel` sends to the child. -/
structure Cmd where
  Args : List Str
  Env : List Str
  WaitDelay : Nat
  Cancel : Signal
  Pdeathsig : Option Signal
deriving DecidableEq

/-- Go `time.Second`, in nanoseconds. -/
def Second : Nat := 1000000000

/-- Go `exec.CommandContext(ctx, name, arg...)`, which `memexec`'s
`exe.CommandContext(ctx, arg...)` calls with the path of the in-memory binary:
it sets `cmd.Cancel` to `cmd.Process.Kill`, and leaves `WaitDelay` zero. -/
def CommandContext (arg : List Str) : Cmd :=
  ⟨arg, [], 0, .SIGKILL, none⟩

/-- Go `os.Getenv(key)` over the environment list: the text after the first `=`
of the first entry whose text before its first `=` is `key`; empty when there
is none. -/
def Getenv (environ : List Str) (key : Str) : Str :=
  if key = [] then []
  else
    match environ.find? (fun s => s.contains '=' && s.takeWhile (fun c => c != '=') == key) with
    | some s => (s.dropWhile (fun c => c != '=')).drop 1
    | none => []

/-- The argument list `args` that `run` builds (lines 77-81); `argv` is
`os.Args`, which has at least two elements when this point is reached. -/
def buildArgs (tmpDir : Str) (argv : List Str) : List Str :=
  ["-b".toList, Join [tmpDir, "nix".toList] ++ ":/nix".toList,
    Join [tmpDir, argv.getD 1 []]] ++ argv.drop 2

/-- The environment `envs` that `run` builds (lines 83-89): the loop appends
every entry of `os.Environ()`, rewriting those that start with `PATH=`. -/
def buildEnvs (tmpDir : Str) (environ : List Str) : List Str :=
  environ.foldl
    (fun envs env =>
      envs ++ [if HasPrefix env "PATH=".toList then
        "PATH=".toList ++ Join [tmpDir, "bin".toList] ++ ":".toList ++ Getenv environ "PATH".toList
      else env])
    []

/-- The command `run` configures (lines 91-101). -/
def buildCmd (tmpDir : Str) (argv environ : List Str) : Cmd :=
  let cmd := CommandContext (buildArgs tmpDir argv)
  ⟨cmd.Args, buildEnvs tmpDir environ, Second * 5, cmd.Cancel, some .SIGKILL⟩

/-- The signals the goroutine `watchCtx` of `exec.Cmd` sends to a child that is
running when the context is cancelled, each with its time in nanoseconds after
the cancellation.  It calls `cmd.Cancel` at once; when `WaitDelay` is non-zero
it then waits for `WaitDelay` and, if the child has not been reaped by then,
calls `Process.Kill`.  `exitAfter` is the time after the cancellation at which
the child exits, or `none` when it does not exit on its own. -/
def watchCtxSignals (cmd : Cmd) (exitAfter : Option Nat) : List (Nat × Signal) :=
  (0, cmd.Cancel) ::
    (if cmd.WaitDelay = 0 then []
     else
      match exitAfter with
      | some d => if d < cmd.WaitDelay then [] else [(cmd.WaitDelay, .SIGKILL)]
      | none => [(cmd.WaitDelay, .SIGKILL)])

/-- The state of the launcher process that `run` reads and changes. -/
structure Proc where
  Args : List Str
  Environ : List Str
  fs : FS
deriving DecidableEq

/-- The results of what `run` asks of its surroundings: `os.MkdirTemp`, the
embedded archive `DockerRootfsContent`, `memexec.New(ProotContent)`, whether the
interrupt arrived before `cmd.Start`, the error of the spawn itself, how the
child terminates, the error (if any) that `watchCtx` hands to `cmd.Wait` after
it has called `cmd.Cancel`, whether the launcher runs as the superuser, and what
the child, once started, does to the file system while it runs. -/
structure Host where
  mkdirTemp : Except Err Str
  rootfs : TarGz
  memexecNew : Option Err
  ctxDoneAtStart : Bool
  startErr : Option Err
  child : ProcessState
  watchErr : Option Err
  root : Bool
  childFs : FS → FS

/-- The externally visible steps of `run`, in the order taken. -/
inductive Event where
  | logFatal
  | mkdirTemp (dir : Str)
  | unpack (dir : Str)
  | memexecNew
  | start (cmd : Cmd)
  | wait
  | exeClose
  | removeAll (dir : Str)
deriving DecidableEq

/-- How a call of `run` ends: it returns an error value (`none` for `nil`), or
`log.Fatal` ends the process inside it. -/
inductive RunResult where
  | returned (err : Option Err)
  | fatal
deriving DecidableEq

/-- What a call of `run` leaves behind: how it ended, the state of the launcher
process, the steps taken, and the error the deferred `cleanUp` returned, which
nothing reads (`none` also when it was not called). -/
structure Outcome where
  result : RunResult
  proc : Proc
  trace : List Event
  cleanupErr : Option Err
deriving DecidableEq

/-- The function `createTmp`: `os.MkdirTemp("", "rootfs")` creates the directory
with mode 0700 and returns its name, which is taken to be a real name. -/
def createTmp (h : Host) (fs : FS) : Except Err (Str × FS) :=
  match h.mkdirTemp with
  | .error e => .error e
  | .ok dir => .ok (dir, fs.put dir (.dir 448))

/-- The function `cleanUp`: `return os.RemoveAll(tmpDir)`. -/
def cleanUp (root : Bool) (tmpDir : Str) (fs : FS) : FS × Option Err := RemoveAll root tmpDir fs

/-- Go `ProcessState.ExitCode()`: the exit code of an exited process, `-1` for
one terminated by a signal. -/
def ProcessState.ExitCode : ProcessState → Int
  | .exited code => Int.ofNat (code % 256)
  | .signaled _ => -1

/-- Go `cmd.Start()`: it returns the context error without spawning when the
context is already done, and the error of the spawn otherwise. -/
def cmdStart (h : Host) : Option Err :=
  if h.ctxDoneAtStart then some .canceled else h.startErr

/-- Go `cmd.Wait()` for a command whose standard streams are files: an
`*exec.ExitError` unless the child exited with status 0; when the child was
successful and `watchCtx` reports an error, that error. -/
def cmdWait (st : ProcessState) (watchErr : Option Err) : Option Err :=
  let err : Option Err := if st = .exited 0 then none else some (.exit st)
  match err, watchErr with
  | none, some w => some w
  | e, _ => e

/-- The part of `run` after `defer cleanUp(tmpDir)` is registered (lines 65-113),
started in the process state `p`, with `exe.Close()` deferred. -/
def runBody (h : Host) (p : Proc) (tmpDir : Str) : Outcome :=
  match unpackTarGz h.rootfs tmpDir p.fs with
  | (fs1, some err) =>
    ⟨.returned (some err), ⟨p.Args, p.Environ, fs1⟩, [.unpack tmpDir], none⟩
  | (fs1, none) =>
    let p1 : Proc := ⟨p.Args, p.Environ, fs1⟩
    match h.memexecNew with
    | some err => ⟨.returned (some err), p1, [.unpack tmpDir, .memexecNew], none⟩
    | none =>
      let cmd := buildCmd tmpDir p.Args p.Environ
      match cmdStart h with
      | some err =>
        ⟨.returned (some err), p1, [.unpack tmpDir, .memexecNew, .start cmd, .exeClose], none⟩
      | none =>
        -- the child runs
        let p2 : Proc := ⟨p.Args, p.Environ, h.childFs fs1⟩
        match cmdWait h.child h.watchErr with
        | some err =>
          ⟨.returned (some err), p2,
            [.unpack tmpDir, .memexecNew, .start cmd, .wait, .exeClose], none⟩
        | none =>
          ⟨.returned none, p2, [.unpack tmpDir, .memexecNew, .start cmd, .wait, .exeClose], none⟩

/-- The function `run`.  The deferred `cleanUp(tmpDir)` runs when `run` returns;
the error it returns is dropped. -/
def run (h : Host) (p : Proc) : Outcome :=
  if p.Args.length < 2 then
    -- log.Fatal
    ⟨.fatal, p, [.logFatal], none⟩
  else
    match createTmp h p.fs with
    | .error err => ⟨.returned (some err), p, [], none⟩
    | .ok (tmpDir, fs1) =>
      let r := runBody h ⟨p.Args, p.Environ, fs1⟩ tmpDir
      if Getenv p.Environ "PROOT_NO_CLEANUP".toList ≠ "1".toList then
        -- defer cleanUp(tmpDir)
        ⟨r.result, ⟨r.proc.Args, r.proc.Environ, (cleanUp h.root tmpDir r.proc.fs).1⟩,
          .mkdirTemp tmpDir :: r.trace ++ [.removeAll tmpDir],
          (cleanUp h.root tmpDir r.proc.fs).2⟩
      else
        ⟨r.result, r.proc, .mkdirTemp tmpDir :: r.trace, none⟩

/-- Go `os.Exit(code)`: the status the parent observes is the low 8 bits. -/
def exitStatus (code : Int) : Nat := (code % 256).toNat

/-- The function `main`, as the exit status of the launcher: 0 when `run`
returns `nil`, `os.Exit(targetErr.ExitCode())` for an `*exec.ExitError`, and
the status 1 of `log.Fatal` otherwise. -/
def mainExit (r : RunResult) : Nat :=
  match r with
  | .fatal => 1
  | .returned none => 0
  | .returned (some (.exit st)) => exitStatus st.ExitCode
  | .returned (some _) => 1

/-- The exit status of the launcher for a host and a process state. -/
def main (h : Host) (p : Proc) : Nat := mainExit (run h p).result

/-! ## Sample inputs, used to evaluate the definitions -/

/-- A file system with the directories `/`, `/tmp`, `/tmp/abc` and `/tmp/abcd`. -/
def sampleFS : FS :=
  [("/".toList, .dir 493), ("/tmp".toList, .dir 511), ("/tmp/abc".toList, .dir 448),
    ("/tmp/abcd".toList, .dir 448)]

/-- A regular-file entry with the given name, mode and content. -/
def regEntry (name : Str) (mode : Int) (body : List Nat) : Entry :=
  ⟨⟨TypeReg, name, [], mode⟩, body, none⟩

/-- An outer stream with one manifest entry and one layer that holds `entries`. -/
def imageOf (entries : List Entry) : TarGz :=
  .stream
    [⟨⟨TypeReg, "manifest.json".toList, [], 420⟩, ⟨[], none⟩⟩,
     ⟨⟨TypeReg, "0a1b/layer.tar".toList, [], 420⟩, ⟨entries, none⟩⟩]
    none

/-- A layer with the directory `bin` and the file `bin/true`. -/
def sampleLayer : List Entry :=
  [⟨⟨TypeDir, "bin".toList, [], 493⟩, [], none⟩, regEntry "bin/true".toList 493 [127, 69, 76, 70]]

/-- A host on which every step up to `cmd.Wait` succeeds, for an unprivileged
launcher; the child terminates with `child`, leaves the file system as it is,
and `watchCtx` reports `watchErr`. -/
def sampleHost (child : ProcessState) (watchErr : Option Err) : Host :=
  ⟨.ok "/tmp/rootfs1".toList, imageOf sampleLayer, none, false, none, child, watchErr, false,
    fun fs => fs⟩

/-- The layer `sampleLayer` followed by the directory `d` of mode 0300, which its
owner can write and search but not read, and the file `d/f`. -/
def lockedLayer : List Entry :=
  sampleLayer ++ [⟨⟨TypeDir, "d".toList, [], 192⟩, [], none⟩, regEntry "d/f".toList 420 [1]]

/-- The host `sampleHost`, with the image that holds `lockedLayer`. -/
def lockedHost (root : Bool) : Host :=
  ⟨.ok "/tmp/rootfs1".toList, imageOf lockedLayer, none, false, none, .exited 0, none, root,
    fun fs => fs⟩

/-- A launcher process started as `prog /bin/true` with `cleanup` as the value
of `PROOT_NO_CLEANUP`. -/
def sampleProc (cleanup : Str) : Proc :=
  ⟨["prog".toList, "/bin/true".toList],
    ["HOME=/root".toList, "PATH=/usr/bin:/bin".toList, "PROOT_NO_CLEANUP=".toList ++ cleanup],
    [("/".toList, .dir 493), ("/tmp".toList, .dir 511)]⟩

/-! ## The loop of `filepath.Clean`, element by element -/

/-- What one path element `e` (a piece between separators) does to the buffer
and `dotdot` of `filepath.Clean`: nothing for an empty element or `.`, the
backtracking for `..`, and the copy, after a separator if needed, otherwise. -/
def cleanStep (rooted : Bool) (st : Str × Nat) (e : Str) : Str × Nat :=
  if e = [] ∨ e = ['.'] then st
  else if e = ['.', '.'] then
    if st.2 < st.1.length then
      (st.1.take (backtrack st.1 st.2 (st.1.length - 1)), st.2)
    else if !rooted then
      ((if 0 < st.1.length then st.1 ++ ['/'] else st.1) ++ ['.', '.'],
        ((if 0 < st.1.length then st.1 ++ ['/'] else st.1) ++ ['.', '.']).length)
    else st
  else
    ((if (rooted && st.1.length != 1) || (!rooted && st.1.length != 0) then st.1 ++ ['/']
      else st.1) ++ e, st.2)

/-- The buffer and `dotdot` with which `filepath.Clean` enters its loop. -/
def cleanInit (rooted : Bool) : Str × Nat := if rooted then (['/'], 1) else ([], 0)

/-- What every state of the loop of `filepath.Clean` satisfies: for a rooted path
the buffer starts with the separator and `dotdot` is at least 1; otherwise the
buffer does not start with a separator. -/
def cleanInv (rooted : Bool) (st : Str × Nat) : Prop :=
  (rooted = true → st.1.head? = some '/' ∧ 1 ≤ st.2) ∧
  (rooted = false → st.1.head? ≠ some '/')

/-- The result of `filepath.Clean` for a final buffer: `.` when it is empty. -/
def cleanFinish (out : Str) : Str := if out.length = 0 then ['.'] else out

/-- The copy of a real path element in `filepath.Clean`: a separator, unless the
buffer is still at its start, and then the element. -/
def pushElem (rooted : Bool) (out e : Str) : Str :=
  (if (rooted && out.length != 1) || (!rooted && out.length != 0) then out ++ ['/'] else out) ++ e

/-- The buffer that holds the given path elements, in order. -/
def renderFrom (rooted : Bool) (cs : List Str) : Str :=
  cs.foldl (pushElem rooted) (cleanInit rooted).1

/-- A path element that `filepath.Clean` keeps: not empty, not `.`, and free of
separators. -/
def goodElem (e : Str) : Prop := e ≠ [] ∧ e ≠ ['.'] ∧ ∀ c ∈ e, isSep c = false

/-- The shape of every state of the loop of `filepath.Clean`: the buffer holds a
run of `..` elements (none for a rooted path) followed by real elements, and
`dotdot` is the length of the buffer that holds the run alone. -/
def cleanNF (rooted : Bool) (st : Str × Nat) : Prop :=
  ∃ dots cs : List Str,
    (∀ d ∈ dots, d = ['.', '.']) ∧ (rooted = true → dots = []) ∧
    (∀ e ∈ cs, goodElem e ∧ e ≠ ['.', '.']) ∧
    st.1 = renderFrom rooted (dots ++ cs) ∧ st.2 = (renderFrom rooted dots).length

/-- Every directory of `fs` is still the same directory in `fs1`. -/
def keepsDirs (fs fs1 : FS) : Prop :=
  ∀ k p, fs.get k = some (.dir p) → fs1.get k = some (.dir p)

/-! ## Facts about `filepath.Clean` and `filepath.Join` -/

theorem takeWhile_nil_of_sepOrEnd (l : Str) (h : sepOrEnd l = true) :
    l.takeWhile (fun d => !isSep d) = [] ∧ l.dropWhile (fun d => !isSep d) = l := by
  cases l with
  | nil => exact ⟨rfl, rfl⟩
  | cons a as =>
    have ha : isSep a = true := h
    simp [List.takeWhile, List.dropWhile, ha]

theorem sepOrEnd_of_takeWhile_nil (l : Str) (h : l.takeWhile (fun d => !isSep d) = []) :
    sepOrEnd l = true := by
  cases l with
  | nil => rfl
  | cons a as =>
    cases ha : isSep a
    · simp [List.takeWhile, ha] at h
    · exact ha

theorem splitSlash_eq (p : Str) :
    splitSlash p = p.takeWhile (fun d => !isSep d) ::
      (match p.dropWhile (fun d => !isSep d) with
        | [] => []
        | _ :: r => splitSlash r) := by
  induction p with
  | nil => rfl
  | cons c cs ih =>
    cases hc : isSep c
    · rw [splitSlash, if_neg (by simp [hc]), ih]
      simp [List.takeWhile, List.dropWhile, hc]
    · rw [splitSlash, if_pos hc]
      simp [List.takeWhile, List.dropWhile, hc]

theorem cleanLoop_nil (rooted : Bool) (fuel : Nat) (out : Str) (dotdot : Nat) :
    cleanLoop rooted fuel [] out dotdot = (out, dotdot) := by
  cases fuel <;> rfl

theorem cleanStep_nil (rooted : Bool) (st : Str × Nat) : cleanStep rooted st [] = st := by
  simp [cleanStep]

/-- One iteration of the loop on an unread part that starts with a non-separator
consumes the first path element and applies `cleanStep` to it. -/
theorem cleanLoop_element (rooted : Bool) (fuel : Nat) (c : Char) (rest out : Str) (dotdot : Nat)
    (hc : isSep c = false) :
    cleanLoop rooted (fuel + 1) (c :: rest) out dotdot =
      cleanLoop rooted fuel ((c :: rest).dropWhile (fun d => !isSep d))
        (cleanStep rooted (out, dotdot) ((c :: rest).takeWhile (fun d => !isSep d))).1
        (cleanStep rooted (out, dotdot) ((c :: rest).takeWhile (fun d => !isSep d))).2 := by
  have htw : (c :: rest).takeWhile (fun d => !isSep d) = c :: rest.takeWhile (fun d => !isSep d) := by
    simp [List.takeWhile, hc]
  have hdw : (c :: rest).dropWhile (fun d => !isSep d) = rest.dropWhile (fun d => !isSep d) := by
    simp [List.dropWhile, hc]
  rw [cleanLoop, if_neg (by simp [hc])]
  by_cases hA : (c == '.' && sepOrEnd rest) = true
  · rw [if_pos hA]
    rw [Bool.and_eq_true] at hA
    have hcd : c = '.' := by simpa using hA.1
    have h1 := takeWhile_nil_of_sepOrEnd rest hA.2
    rw [htw, hdw, h1.1, h1.2, hcd]
    simp [cleanStep]
  · rw [if_neg hA]
    by_cases hB : (c == '.' && rest.head? == some '.' && sepOrEnd rest.tail) = true
    · rw [if_pos hB]
      simp only [Bool.and_eq_true] at hB
      obtain ⟨⟨hB1, hB2⟩, hB3⟩ := hB
      have hcd : c = '.' := by simpa using hB1
      cases rest with
      | nil => simp at hB2
      | cons d r2 =>
        have hd : d = '.' := by simpa using hB2
        subst hd
        subst hcd
        have h1 := takeWhile_nil_of_sepOrEnd r2 hB3
        have e1 : ('.' :: '.' :: r2).takeWhile (fun d => !isSep d) = ['.', '.'] := by
          rw [List.takeWhile_cons, hc, List.takeWhile_cons, hc, h1.1]
          rfl
        have e2 : ('.' :: '.' :: r2).dropWhile (fun d => !isSep d) = r2 := by
          rw [List.dropWhile_cons, hc, List.dropWhile_cons, hc, h1.2]
          rfl
        rw [e1, e2]
        simp only [List.tail_cons]
        by_cases hlt : dotdot < out.length
        · simp [cleanStep, hlt]
        · cases rooted <;> simp [cleanStep, hlt]
    · rw [if_neg hB]
      have hne1 : ¬ ((c :: rest.takeWhile (fun d => !isSep d)) = [] ∨
          (c :: rest.takeWhile (fun d => !isSep d)) = ['.']) := by
        rintro (h | h)
        · exact absurd h (by simp)
        · injection h with h1 h2
          exact hA (by simp [h1, sepOrEnd_of_takeWhile_nil rest h2])
      have hne2 : ¬ ((c :: rest.takeWhile (fun d => !isSep d)) = ['.', '.']) := by
        intro h
        injection h with h1 h2
        cases rest with
        | nil => simp at h2
        | cons d r2 =>
          cases hd : isSep d
          · simp only [List.takeWhile, hd, Bool.not_false] at h2
            injection h2 with h3 h4
            exact hB (by simp [h1, h3, sepOrEnd_of_takeWhile_nil r2 h4])
          · simp [List.takeWhile, hd] at h2
      rw [htw, hdw]
      simp only [cleanStep, if_neg hne1, if_neg hne2]

theorem dropWhile_head_sep (l : Str) (s : Char) (r : Str)
    (h : l.dropWhile (fun d => !isSep d) = s :: r) : isSep s = true ∧ r.length < l.length := by
  induction l with
  | nil => simp at h
  | cons a as ih =>
    cases ha : isSep a
    · rw [List.dropWhile_cons, ha] at h
      have := ih h
      exact ⟨this.1, by simp only [List.length_cons]; omega⟩
    · rw [List.dropWhile_cons, ha] at h
      simp only [Bool.not_true, Bool.false_eq_true, if_false] at h
      injection h with h1 h2
      subst h1
      subst h2
      exact ⟨ha, by simp⟩

/-- The loop of `filepath.Clean`, given at least one unit of budget per unread
byte, applies `cleanStep` to the pieces of the unread part in order. -/
theorem cleanLoop_eq_foldl (rooted : Bool) :
    ∀ (fuel : Nat) (p out : Str) (dotdot : Nat), p.length ≤ fuel →
      cleanLoop rooted fuel p out dotdot =
        (splitSlash p).foldl (cleanStep rooted) (out, dotdot) := by
  intro fuel
  induction fuel with
  | zero =>
    intro p out dotdot hp
    have : p = [] := List.length_eq_zero.mp (by omega)
    subst this
    simp [cleanLoop_nil, splitSlash, cleanStep_nil]
  | succ fuel ih =>
    intro p out dotdot hp
    cases p with
    | nil => simp [cleanLoop_nil, splitSlash, cleanStep_nil]
    | cons c rest =>
      have hrest : rest.length ≤ fuel := by
        simp only [List.length_cons] at hp
        omega
      cases hc : isSep c
      · rw [cleanLoop_element rooted fuel c rest out dotdot hc, splitSlash_eq (c :: rest),
          List.foldl_cons]
        generalize cleanStep rooted (out, dotdot) ((c :: rest).takeWhile (fun d => !isSep d)) = st
        have hdw : (c :: rest).dropWhile (fun d => !isSep d) = rest.dropWhile (fun d => !isSep d) := by
          simp [List.dropWhile, hc]
        rw [hdw]
        cases hrem : rest.dropWhile (fun d => !isSep d) with
        | nil => simp [cleanLoop_nil]
        | cons s r =>
          have hs := dropWhile_head_sep rest s r hrem
          rw [ih (s :: r) st.1 st.2 (by simp only [List.length_cons]; omega)]
          rw [splitSlash, if_pos hs.1, List.foldl_cons, cleanStep_nil]
      · rw [cleanLoop, if_pos hc, ih rest out dotdot hrest, splitSlash, if_pos hc,
          List.foldl_cons, cleanStep_nil]

/-- The loop budget `path.length` that `Clean` passes is enough: a larger one
gives the same result. -/
theorem cleanLoop_fuel (rooted : Bool) (fuel : Nat) (p out : Str) (dotdot : Nat)
    (h : p.length ≤ fuel) :
    cleanLoop rooted fuel p out dotdot = cleanLoop rooted p.length p out dotdot := by
  rw [cleanLoop_eq_foldl rooted fuel p out dotdot h,
    cleanLoop_eq_foldl rooted p.length p out dotdot (le_refl _)]

theorem IsAbs_cons (c : Char) (rest : Str) : IsAbs (c :: rest) = isSep c := by
  by_cases h : c = '/'
  · subst h
    simp [IsAbs, HasPrefix, List.isPrefixOf, isSep]
  · have h1 : isSep c = false := by simpa [isSep] using h
    have h2 : ('/' == c) = false := by simpa using Ne.symm h
    rw [h1]
    simp [IsAbs, HasPrefix, List.isPrefixOf, h2]

/-- The function `filepath.Clean` as a fold of `cleanStep` over the pieces of
the path. -/
theorem Clean_eq_foldl (path : Str) :
    Clean path =
      if ((splitSlash path).foldl (cleanStep (IsAbs path)) (cleanInit (IsAbs path))).1.length = 0
      then ['.']
      else ((splitSlash path).foldl (cleanStep (IsAbs path)) (cleanInit (IsAbs path))).1 := by
  cases path with
  | nil => rfl
  | cons c rest =>
    rw [IsAbs_cons]
    cases hc : isSep c
    · unfold Clean
      simp only [hc, Bool.false_eq_true, if_false, cleanInit]
      rw [cleanLoop_eq_foldl false _ (c :: rest) [] 0 (le_refl _)]
    · unfold Clean
      simp only [hc, if_true, cleanInit]
      rw [cleanLoop_eq_foldl true _ rest ['/'] 1 (by simp)]
      rw [splitSlash, if_pos hc, List.foldl_cons, cleanStep_nil]

theorem splitSlash_ne_nil (p : Str) : splitSlash p ≠ [] := by
  rw [splitSlash_eq]
  exact List.cons_ne_nil _ _

theorem splitSlash_append (a b : Str) :
    splitSlash (a ++ '/' :: b) = splitSlash a ++ splitSlash b := by
  induction a with
  | nil => rfl
  | cons c cs ih =>
    cases hc : isSep c
    · rw [List.cons_append, splitSlash, if_neg (by simp [hc]), ih,
        splitSlash, if_neg (by simp [hc])]
      cases hs : splitSlash cs with
      | nil => exact absurd hs (splitSlash_ne_nil cs)
      | cons h t => rfl
    · rw [List.cons_append, splitSlash, if_pos hc, ih, splitSlash, if_pos hc]
      rfl

theorem splitSlash_sepFree (p : Str) : ∀ e ∈ splitSlash p, ∀ c ∈ e, isSep c = false := by
  induction p with
  | nil =>
    intro e he c hc
    simp [splitSlash] at he
    subst he
    simp at hc
  | cons a as ih =>
    intro e he c hc
    cases ha : isSep a
    · rw [splitSlash, if_neg (by simp [ha])] at he
      cases hs : splitSlash as with
      | nil => exact absurd hs (splitSlash_ne_nil as)
      | cons h t =>
        rw [hs] at he ih
        simp only [List.mem_cons] at he
        rcases he with he | he
        · subst he
          simp only [List.mem_cons] at hc
          rcases hc with hc | hc
          · subst hc
            exact ha
          · exact ih h (List.mem_cons_self _ _) c hc
        · exact ih e (List.mem_cons_of_mem _ he) c hc
    · rw [splitSlash, if_pos ha] at he
      simp only [List.mem_cons] at he
      rcases he with he | he
      · subst he
        simp at hc
      · exact ih e he c hc

theorem splitSlash_of_sepFree (e : Str) (he : ∀ c ∈ e, isSep c = false) : splitSlash e = [e] := by
  induction e with
  | nil => rfl
  | cons a as ih =>
    have ha : isSep a = false := he a (List.mem_cons_self _ _)
    rw [splitSlash, if_neg (by simp [ha]), ih (fun c hc => he c (List.mem_cons_of_mem _ hc))]

theorem components_append (a b : Str) :
    components (a ++ '/' :: b) = components a ++ components b := by
  unfold components
  rw [splitSlash_append, List.filter_append]

theorem components_real (e : Str) (he : ∀ c ∈ e, isSep c = false)
    (hreal : ¬ (e = [] ∨ e = ['.'])) : components e = [e] := by
  unfold components
  rw [splitSlash_of_sepFree e he]
  have : decide (e ≠ [] ∧ e ≠ ['.']) = true := by
    rw [decide_eq_true_eq]
    exact ⟨fun h => hreal (Or.inl h), fun h => hreal (Or.inr h)⟩
  rw [List.filter_cons, if_pos this, List.filter_nil]

theorem backtrack_ge (out : Str) (dotdot : Nat) :
    ∀ w, dotdot ≤ w → dotdot ≤ backtrack out dotdot w := by
  intro w
  induction w with
  | zero =>
    intro h
    simpa [backtrack] using h
  | succ w ih =>
    intro h
    rw [backtrack]
    split
    · rename_i hcond
      rw [Bool.and_eq_true] at hcond
      have : dotdot < w + 1 := by simpa using hcond.1
      exact ih (by omega)
    · exact h

theorem head?_take_pos (out : Str) (w : Nat) (hw : 1 ≤ w) : (out.take w).head? = out.head? := by
  cases out with
  | nil => simp
  | cons a as =>
    cases w with
    | zero => omega
    | succ w => rfl

theorem head?_take_ne (out : Str) (w : Nat) (h : out.head? ≠ some '/') :
    (out.take w).head? ≠ some '/' := by
  cases w with
  | zero => simp
  | succ w => rw [head?_take_pos out (w + 1) (by omega)]; exact h

theorem head?_append_of_ne_nil (a b : Str) (ha : a ≠ []) : (a ++ b).head? = a.head? := by
  cases a with
  | nil => exact absurd rfl ha
  | cons x xs => rfl

/-- Every step of the loop of `filepath.Clean` keeps `cleanInv`. -/
theorem cleanStep_inv (rooted : Bool) (st : Str × Nat) (e : Str)
    (he : ∀ c ∈ e, isSep c = false) (hinv : cleanInv rooted st) :
    cleanInv rooted (cleanStep rooted st e) := by
  obtain ⟨out, dotdot⟩ := st
  unfold cleanStep
  split
  · exact hinv
  · rename_i hreal
    split
    · -- the element is `..`
      split
      · rename_i hlt
        have hge : dotdot ≤ backtrack out dotdot (out.length - 1) :=
          backtrack_ge out dotdot _ (by simp only at hlt; omega)
        constructor
        · intro hr
          have := hinv.1 hr
          exact ⟨by
            simp only
            rw [head?_take_pos out _ (by simp only at this; omega)]
            exact this.1, this.2⟩
        · intro hr
          exact head?_take_ne out _ (hinv.2 hr)
      · split
        · rename_i hr
          have hr2 : rooted = false := by simpa using hr
          constructor
          · intro h
            rw [hr2] at h
            exact absurd h (by simp)
          · intro _
            have hno := hinv.2 hr2
            simp only at hno ⊢
            cases out with
            | nil => simp
            | cons x xs =>
              simp only [List.length_cons, Nat.zero_lt_succ, if_true, List.cons_append,
                List.head?_cons] at hno ⊢
              exact hno
        · exact hinv
    · -- a real element
      have hne : e ≠ [] := fun h => hreal (Or.inl h)
      constructor
      · intro hr
        have h1 := hinv.1 hr
        simp only at h1 ⊢
        refine ⟨?_, h1.2⟩
        cases out with
        | nil => simp at h1
        | cons x xs =>
          have hx : x = '/' := by simpa using h1.1
          split <;> simp [hx]
      · intro hr
        have h1 := hinv.2 hr
        simp only at h1 ⊢
        cases out with
        | nil =>
          subst hr
          simp only [List.length_nil, Bool.false_and, Bool.not_false, bne_self_eq_false,
            Bool.and_false, Bool.or_false, Bool.false_eq_true, if_false, List.nil_append]
          cases e with
          | nil => exact absurd rfl hne
          | cons y ys =>
            have hy : isSep y = false := he y (List.mem_cons_self _ _)
            simp only [List.head?_cons, ne_eq, Option.some.injEq]
            intro h
            rw [h] at hy
            exact absurd hy (by decide)
        | cons x xs =>
          split <;> simpa using h1

theorem foldl_cleanStep_inv (rooted : Bool) (cs : List Str) :
    ∀ st, (∀ e ∈ cs, ∀ c ∈ e, isSep c = false) → cleanInv rooted st →
      cleanInv rooted (cs.foldl (cleanStep rooted) st) := by
  induction cs with
  | nil => intro st _ h; exact h
  | cons e es ih =>
    intro st hfree hinv
    rw [List.foldl_cons]
    exact ih _ (fun x hx => hfree x (List.mem_cons_of_mem _ hx))
      (cleanStep_inv rooted st e (hfree e (List.mem_cons_self _ _)) hinv)

theorem cleanInit_inv (rooted : Bool) : cleanInv rooted (cleanInit rooted) := by
  cases rooted
  · exact ⟨fun h => absurd h (by simp), fun _ => by simp [cleanInit]⟩
  · exact ⟨fun _ => ⟨rfl, le_refl _⟩, fun h => absurd h (by simp)⟩

/-- A step of the loop on an element other than `..` keeps `dotdot` and adds
the element, when it is a real one, to the components of the buffer. -/
theorem cleanStep_components (rooted : Bool) (st : Str × Nat) (e : Str)
    (he : ∀ c ∈ e, isSep c = false) (hdd : e ≠ ['.', '.']) (hinv : cleanInv rooted st) :
    (cleanStep rooted st e).2 = st.2 ∧
    components (cleanStep rooted st e).1 =
      components st.1 ++ [e].filter (fun c => c ≠ [] ∧ c ≠ ['.']) := by
  obtain ⟨out, dotdot⟩ := st
  unfold cleanStep
  split
  · rename_i hnoop
    have : decide (e ≠ [] ∧ e ≠ ['.']) = false := by
      rw [decide_eq_false_iff_not]
      rintro ⟨h1, h2⟩
      rcases hnoop with h | h
      · exact h1 h
      · exact h2 h
    rw [List.filter_cons, this]
    simp
  · rename_i hreal
    try rw [if_neg hdd]
    have hkeep : decide (e ≠ [] ∧ e ≠ ['.']) = true := by
      rw [decide_eq_true_eq]
      exact ⟨fun h => hreal (Or.inl h), fun h => hreal (Or.inr h)⟩
    refine ⟨rfl, ?_⟩
    rw [List.filter_cons, if_pos hkeep, List.filter_nil]
    simp only
    split
    · rw [List.append_assoc, List.singleton_append, components_append,
        components_real e he hreal]
    · rename_i hcond
      cases rooted
      · have hlen : out.length = 0 := by simpa using hcond
        have hout : out = [] := List.length_eq_zero.mp hlen
        subst hout
        rw [List.nil_append, components_real e he hreal]
        rfl
      · have hlen : out.length = 1 := by simpa using hcond
        have hhead := (hinv.1 rfl).1
        cases out with
        | nil => simp at hlen
        | cons x xs =>
          have hxs : xs = [] := List.length_eq_zero.mp (by simpa using hlen)
          have hx : x = '/' := by simpa using hhead
          subst hxs
          subst hx
          have := components_append [] e
          rw [List.nil_append] at this
          rw [List.singleton_append, this, components_real e he hreal]
          rfl

theorem foldl_cleanStep_components (rooted : Bool) (cs : List Str) :
    ∀ st, (∀ e ∈ cs, ∀ c ∈ e, isSep c = false) → ['.', '.'] ∉ cs → cleanInv rooted st →
      components (cs.foldl (cleanStep rooted) st).1 =
        components st.1 ++ cs.filter (fun c => c ≠ [] ∧ c ≠ ['.']) := by
  induction cs with
  | nil =>
    intro st _ _ _
    simp
  | cons e es ih =>
    intro st hfree hdd hinv
    have he := hfree e (List.mem_cons_self _ _)
    have hne : e ≠ ['.', '.'] := fun h => hdd (h ▸ List.mem_cons_self _ _)
    have hstep := cleanStep_components rooted st e he hne hinv
    rw [List.foldl_cons,
      ih _ (fun x hx => hfree x (List.mem_cons_of_mem _ hx))
        (fun h => hdd (List.mem_cons_of_mem _ h)) (cleanStep_inv rooted st e he hinv),
      hstep.2, List.append_assoc, ← List.filter_append, List.singleton_append]

theorem stripComponents_append (xs ys : List Str) :
    stripComponents xs (xs ++ ys) = some ys := by
  induction xs with
  | nil => rfl
  | cons x xs ih => rw [List.cons_append, stripComponents, if_pos rfl, ih]

theorem components_cleanFinish (out : Str) : components (cleanFinish out) = components out := by
  unfold cleanFinish
  split
  · rename_i h
    have : out = [] := List.length_eq_zero.mp h
    subst this
    rfl
  · rfl

theorem IsAbs_cleanFinish (rooted : Bool) (st : Str × Nat) (hinv : cleanInv rooted st) :
    IsAbs (cleanFinish st.1) = rooted := by
  obtain ⟨out, dotdot⟩ := st
  unfold cleanFinish
  cases out with
  | nil =>
    cases rooted
    · rfl
    · have := (hinv.1 rfl).1
      simp at this
  | cons x xs =>
    simp only [List.length_cons, Nat.succ_ne_zero, if_false]
    rw [IsAbs_cons]
    cases rooted
    · have := hinv.2 rfl
      cases hx : isSep x
      · rfl
      · have hx2 : x = '/' := by simpa [isSep] using hx
        subst hx2
        simp at this
    · have := (hinv.1 rfl).1
      have hx2 : x = '/' := by simpa using this
      subst hx2
      rfl

theorem Join_pair (a b : Str) (ha : a ≠ []) : Join [a, b] = Clean (a ++ '/' :: b) := by
  rw [Join, if_pos ha]
  simp [stringsJoin, List.intercalate]

/-- A non-empty directory joined with a name that has no `..` element gives a
path inside that directory, component-wise. -/
theorem Join_isWithin (dir name : Str) (hdir : dir ≠ [])
    (hname : ['.', '.'] ∉ splitSlash name) : isWithin dir (Join [dir, name]) = true := by
  have habs : IsAbs (dir ++ '/' :: name) = IsAbs dir := by
    cases dir with
    | nil => exact absurd rfl hdir
    | cons c cs => rw [List.cons_append, IsAbs_cons, IsAbs_cons]
  have hinv1 : cleanInv (IsAbs dir)
      ((splitSlash dir).foldl (cleanStep (IsAbs dir)) (cleanInit (IsAbs dir))) :=
    foldl_cleanStep_inv _ _ _ (splitSlash_sepFree dir) (cleanInit_inv _)
  have hinv2 : cleanInv (IsAbs dir)
      ((splitSlash name).foldl (cleanStep (IsAbs dir))
        ((splitSlash dir).foldl (cleanStep (IsAbs dir)) (cleanInit (IsAbs dir)))) :=
    foldl_cleanStep_inv _ _ _ (splitSlash_sepFree name) hinv1
  have hcd : Clean dir =
      cleanFinish ((splitSlash dir).foldl (cleanStep (IsAbs dir)) (cleanInit (IsAbs dir))).1 :=
    Clean_eq_foldl dir
  have hcj : Join [dir, name] =
      cleanFinish ((splitSlash name).foldl (cleanStep (IsAbs dir))
        ((splitSlash dir).foldl (cleanStep (IsAbs dir)) (cleanInit (IsAbs dir)))).1 := by
    rw [Join_pair dir name hdir, Clean_eq_foldl, habs, splitSlash_append, List.foldl_append]
    rfl
  unfold isWithin
  rw [hcd, hcj, IsAbs_cleanFinish _ _ hinv1, IsAbs_cleanFinish _ _ hinv2,
    components_cleanFinish, components_cleanFinish,
    foldl_cleanStep_components _ _ _ (splitSlash_sepFree name) hname hinv1,
    stripComponents_append]
  simp only [beq_self_eq_true, Bool.true_and, Bool.not_eq_true', List.contains_eq_any_beq,
    List.any_eq_false, List.mem_filter]
  intro x hx
  have hne : x ≠ ['.', '.'] := fun h => hname (h ▸ hx.1)
  intro hbeq
  exact hne (eq_of_beq hbeq).symm

/-! ### The normal form of the buffer, and idempotence -/

theorem backtrack_stop (out : Str) (dotdot target : Nat) (hdt : dotdot ≤ target)
    (hstop : dotdot = target ∨ isSep (out.getD target '/') = true) :
    ∀ w, target ≤ w → (∀ i, target < i → i ≤ w → isSep (out.getD i '/') = false) →
      backtrack out dotdot w = target := by
  intro w
  induction w with
  | zero =>
    intro h _
    have : target = 0 := by omega
    subst this
    rfl
  | succ w ih =>
    intro h hfree
    rw [backtrack]
    by_cases heq : target = w + 1
    · subst heq
      rcases hstop with hs | hs
      · subst hs
        simp
      · rw [hs]
        simp
    · have hlt : target < w + 1 := by omega
      have h1 : dotdot < w + 1 := by omega
      have h2 := hfree (w + 1) hlt (le_refl _)
      simp only [h1, h2, decide_True, Bool.not_false, Bool.and_self, if_true]
      exact ih (by omega) (fun i hi1 hi2 => hfree i hi1 (by omega))

theorem getD_append_left_len (a s : Str) (j : Nat) :
    (a ++ s).getD (a.length + j) '/' = s.getD j '/' := by
  simp [List.getD_eq_getElem?_getD, List.getElem?_append_right]

/-- Backtracking over the last element of the buffer lands at its start. -/
theorem backtrack_last (out0 s : Str) (dotdot : Nat) (hs : s ≠ [])
    (hdd : dotdot ≤ out0.length)
    (hfree : ∀ j, 1 ≤ j → j < s.length → isSep (s.getD j '/') = false)
    (hstop : dotdot = out0.length ∨ isSep (s.getD 0 '/') = true) :
    (out0 ++ s).take (backtrack (out0 ++ s) dotdot ((out0 ++ s).length - 1)) = out0 := by
  have hlen : 1 ≤ s.length := by
    cases s with
    | nil => exact absurd rfl hs
    | cons x xs => simp
  have hb : backtrack (out0 ++ s) dotdot ((out0 ++ s).length - 1) = out0.length := by
    apply backtrack_stop (out0 ++ s) dotdot out0.length hdd
    · rcases hstop with h | h
      · exact Or.inl h
      · right
        have := getD_append_left_len out0 s 0
        rw [Nat.add_zero] at this
        rw [this]
        exact h
    · rw [List.length_append]
      omega
    · intro i hi1 hi2
      rw [List.length_append] at hi2
      have hi : i = out0.length + (i - out0.length) := by omega
      rw [hi, getD_append_left_len]
      exact hfree _ (by omega) (by omega)
  rw [hb, List.take_left']
  rfl

theorem pushElem_eq (rooted : Bool) (out e : Str) :
    ∃ s, pushElem rooted out e = out ++ s ∧ e.length ≤ s.length ∧
      (s = e ∨ s = '/' :: e) ∧
      (s = e → out.length = (cleanInit rooted).1.length) := by
  unfold pushElem
  split
  · exact ⟨'/' :: e, by simp, by simp, Or.inr rfl, fun h => by
      have := congrArg List.length h
      simp at this⟩
  · rename_i hcond
    refine ⟨e, rfl, le_refl _, Or.inl rfl, fun _ => ?_⟩
    cases rooted
    · have : out.length = 0 := by simpa using hcond
      simpa [cleanInit] using this
    · have : out.length = 1 := by simpa using hcond
      simpa [cleanInit] using this

theorem foldl_pushElem_mono (rooted : Bool) (cs : List Str) :
    ∀ out, out <+: cs.foldl (pushElem rooted) out := by
  induction cs with
  | nil => intro out; exact List.prefix_refl _
  | cons e es ih =>
    intro out
    rw [List.foldl_cons]
    obtain ⟨s, hs, _⟩ := pushElem_eq rooted out e
    exact List.IsPrefix.trans (by rw [hs]; exact List.prefix_append _ _) (ih _)

theorem foldl_pushElem_length (rooted : Bool) (cs : List Str) (out : Str)
    (hne : cs ≠ []) (hgood : ∀ e ∈ cs, e ≠ []) :
    out.length < (cs.foldl (pushElem rooted) out).length := by
  cases cs with
  | nil => exact absurd rfl hne
  | cons e es =>
    rw [List.foldl_cons]
    obtain ⟨s, hs, hlen, _⟩ := pushElem_eq rooted out e
    have h1 := (foldl_pushElem_mono rooted es (pushElem rooted out e)).length_le
    have h2 : 1 ≤ e.length := by
      have := hgood e (List.mem_cons_self _ _)
      cases e with
      | nil => exact absurd rfl this
      | cons x xs => simp
    have h3 : (pushElem rooted out e).length = out.length + s.length := by
      rw [hs, List.length_append]
    omega

theorem renderFrom_append (rooted : Bool) (xs ys : List Str) :
    renderFrom rooted (xs ++ ys) = ys.foldl (pushElem rooted) (renderFrom rooted xs) := by
  unfold renderFrom
  rw [List.foldl_append]

theorem renderFrom_length (rooted : Bool) (cs : List Str) :
    (cleanInit rooted).1.length ≤ (renderFrom rooted cs).length :=
  (foldl_pushElem_mono rooted cs _).length_le

theorem getD_mem_or_default (s : Str) (j : Nat) (hj : j < s.length) : s.getD j '/' ∈ s := by
  rw [List.getD_eq_getElem?_getD, List.getElem?_eq_getElem hj]
  exact List.getElem_mem _

/-- Every step of the loop of `filepath.Clean` keeps the normal form. -/
theorem cleanStep_NF (rooted : Bool) (st : Str × Nat) (e : Str)
    (he : ∀ c ∈ e, isSep c = false) (hnf : cleanNF rooted st) :
    cleanNF rooted (cleanStep rooted st e) := by
  obtain ⟨out, dotdot⟩ := st
  obtain ⟨dots, cs, hdots, hr, hcs, hout, hdd⟩ := hnf
  simp only at hout hdd
  unfold cleanStep
  split
  · exact ⟨dots, cs, hdots, hr, hcs, hout, hdd⟩
  · rename_i hreal
    split
    · -- the element is `..`
      split
      · rename_i hlt
        simp only at hlt
        have hne : cs ≠ [] := by
          intro h
          rw [h, List.append_nil] at hout
          rw [hout, hdd] at hlt
          exact absurd hlt (lt_irrefl _)
        rcases List.eq_nil_or_concat cs with h | ⟨cs0, c, hc0⟩
        · exact absurd h hne
        · have hc : cs = cs0 ++ [c] := by rw [hc0, List.concat_eq_append]
          have hcgood := hcs c (by rw [hc]; simp)
          have hout2 : out = pushElem rooted (renderFrom rooted (dots ++ cs0)) c := by
            rw [hout, hc, ← List.append_assoc, renderFrom_append]
            rfl
          obtain ⟨s, hs, _, hshape, hbase⟩ := pushElem_eq rooted (renderFrom rooted (dots ++ cs0)) c
          have hle : dotdot ≤ (renderFrom rooted (dots ++ cs0)).length := by
            rw [hdd, renderFrom_append]
            exact (foldl_pushElem_mono rooted cs0 _).length_le
          have hsne : s ≠ [] := by
            rcases hshape with h | h
            · rw [h]; exact hcgood.1.1
            · rw [h]; simp
          have hfree : ∀ j, 1 ≤ j → j < s.length → isSep (s.getD j '/') = false := by
            intro j hj1 hj2
            rcases hshape with h | h
            · subst h
              exact hcgood.1.2.2 _ (getD_mem_or_default _ j hj2)
            · subst h
              obtain ⟨k, rfl⟩ : ∃ k, j = k + 1 := ⟨j - 1, by omega⟩
              simp only [List.length_cons] at hj2
              have : ('/' :: c).getD (k + 1) '/' = c.getD k '/' := by
                simp [List.getD_eq_getElem?_getD]
              rw [this]
              exact hcgood.1.2.2 _ (getD_mem_or_default _ k (by omega))
          have hstop : dotdot = (renderFrom rooted (dots ++ cs0)).length ∨
              isSep (s.getD 0 '/') = true := by
            rcases hshape with h | h
            · left
              have h1 := hbase h
              have h2 := renderFrom_length rooted dots
              omega
            · right
              rw [h]
              rfl
          have hbt := backtrack_last (renderFrom rooted (dots ++ cs0)) s dotdot hsne hle hfree hstop
          rw [← hs, ← hout2] at hbt
          refine ⟨dots, cs0, hdots, hr, ?_, ?_, hdd⟩
          · intro x hx
            exact hcs x (by rw [hc]; exact List.mem_append_left _ hx)
          · simp only
            exact hbt
      · rename_i hnlt
        simp only at hnlt
        split
        · rename_i hroot
          have hr2 : rooted = false := by simpa using hroot
          have hcsnil : cs = [] := by
            by_contra hne
            have := foldl_pushElem_length rooted cs (renderFrom rooted dots) hne
              (fun x hx => (hcs x hx).1.1)
            rw [← renderFrom_append, ← hout, ← hdd] at this
            exact hnlt this
          subst hcsnil
          rw [List.append_nil] at hout
          have hpush : (if 0 < out.length then out ++ ['/'] else out) ++ ['.', '.'] =
              pushElem rooted out ['.', '.'] := by
            unfold pushElem
            rw [hr2]
            cases out with
            | nil => rfl
            | cons x xs => simp
          simp only
          rw [hpush]
          have hrender : pushElem rooted out ['.', '.'] = renderFrom rooted (dots ++ [['.', '.']]) := by
            rw [renderFrom_append, hout]
            rfl
          refine ⟨dots ++ [['.', '.']], [], ?_, ?_, ?_, ?_, ?_⟩
          · intro d hd
            rcases List.mem_append.mp hd with h | h
            · exact hdots d h
            · simpa using h
          · intro h
            rw [hr2] at h
            exact absurd h (by simp)
          · intro x hx
            simp at hx
          · simp only [List.append_nil]
            exact hrender
          · simp only
            rw [hrender]
        · exact ⟨dots, cs, hdots, hr, hcs, hout, hdd⟩
    · rename_i hdd2
      refine ⟨dots, cs ++ [e], hdots, hr, ?_, ?_, hdd⟩
      · intro x hx
        rcases List.mem_append.mp hx with h | h
        · exact hcs x h
        · have hxe : x = e := by simpa using h
          subst hxe
          exact ⟨⟨fun h => hreal (Or.inl h), fun h => hreal (Or.inr h), he⟩, hdd2⟩
      · simp only
        rw [← List.append_assoc, renderFrom_append, ← hout]
        rfl

theorem cleanInit_NF (rooted : Bool) : cleanNF rooted (cleanInit rooted) := by
  refine ⟨[], [], fun _ h => by simp at h, fun _ => rfl, fun _ h => by simp at h, rfl, ?_⟩
  cases rooted <;> rfl

theorem foldl_cleanStep_NF (rooted : Bool) (cs : List Str) :
    ∀ st, (∀ e ∈ cs, ∀ c ∈ e, isSep c = false) → cleanNF rooted st →
      cleanNF rooted (cs.foldl (cleanStep rooted) st) := by
  induction cs with
  | nil => intro st _ h; exact h
  | cons e es ih =>
    intro st hfree hnf
    rw [List.foldl_cons]
    exact ih _ (fun x hx => hfree x (List.mem_cons_of_mem _ hx))
      (cleanStep_NF rooted st e (hfree e (List.mem_cons_self _ _)) hnf)

theorem pushElem_head (rooted : Bool) (out e : Str) (h : out.head? = some '/') :
    (pushElem rooted out e).head? = some '/' := by
  obtain ⟨s, hs, _⟩ := pushElem_eq rooted out e
  rw [hs]
  cases out with
  | nil => simp at h
  | cons x xs => exact h

theorem components_pushElem (rooted : Bool) (out e : Str)
    (hhead : rooted = true → out.head? = some '/') (he : goodElem e) :
    components (pushElem rooted out e) = components out ++ [e] := by
  have hreal : ¬ (e = [] ∨ e = ['.']) := fun h => h.elim he.1 he.2.1
  unfold pushElem
  split
  · rw [List.append_assoc, List.singleton_append, components_append,
      components_real e he.2.2 hreal]
  · rename_i hcond
    cases rooted
    · have hlen : out.length = 0 := by simpa using hcond
      have hout : out = [] := List.length_eq_zero.mp hlen
      subst hout
      rw [List.nil_append, components_real e he.2.2 hreal]
      rfl
    · have hlen : out.length = 1 := by simpa using hcond
      cases out with
      | nil => simp at hlen
      | cons x xs =>
        have hxs : xs = [] := List.length_eq_zero.mp (by simpa using hlen)
        have hx : x = '/' := by simpa using hhead rfl
        subst hxs
        subst hx
        have := components_append [] e
        rw [List.nil_append] at this
        rw [List.singleton_append, this, components_real e he.2.2 hreal]
        rfl

theorem components_foldl_pushElem (rooted : Bool) (cs : List Str) :
    ∀ out, (rooted = true → out.head? = some '/') → (∀ e ∈ cs, goodElem e) →
      components (cs.foldl (pushElem rooted) out) = components out ++ cs := by
  induction cs with
  | nil => intro out _ _; simp
  | cons e es ih =>
    intro out hhead hgood
    rw [List.foldl_cons,
      ih _ (fun hr => pushElem_head rooted out e (hhead hr))
        (fun x hx => hgood x (List.mem_cons_of_mem _ hx)),
      components_pushElem rooted out e hhead (hgood e (List.mem_cons_self _ _)),
      List.append_assoc, List.singleton_append]

/-- The components of a buffer in normal form are the elements it holds. -/
theorem components_renderFrom (rooted : Bool) (cs : List Str) (hgood : ∀ e ∈ cs, goodElem e) :
    components (renderFrom rooted cs) = cs := by
  unfold renderFrom
  rw [components_foldl_pushElem rooted cs _ (fun hr => by subst hr; rfl) hgood]
  cases rooted <;> rfl

theorem foldl_cleanStep_components_only (rooted : Bool) (l : List Str) :
    ∀ st, (l.filter (fun c => c ≠ [] ∧ c ≠ ['.'])).foldl (cleanStep rooted) st =
      l.foldl (cleanStep rooted) st := by
  induction l with
  | nil => intro st; rfl
  | cons e es ih =>
    intro st
    rw [List.filter_cons]
    split
    · rw [List.foldl_cons, List.foldl_cons, ih]
    · rename_i hdrop
      have hnoop : e = [] ∨ e = ['.'] := by
        by_contra hcon
        apply hdrop
        rw [decide_eq_true_eq]
        exact ⟨fun h => hcon (Or.inl h), fun h => hcon (Or.inr h)⟩
      have : cleanStep rooted st e = st := by
        unfold cleanStep
        rw [if_pos hnoop]
      rw [List.foldl_cons, this, ih]

theorem foldl_cleanStep_dots (dots : List Str) (hdots : ∀ d ∈ dots, d = ['.', '.']) :
    ∀ out : Str, dots.foldl (cleanStep false) (out, out.length) =
      (dots.foldl (pushElem false) out, (dots.foldl (pushElem false) out).length) := by
  induction dots with
  | nil => intro out; rfl
  | cons d ds ih =>
    intro out
    have hd : d = ['.', '.'] := hdots d (List.mem_cons_self _ _)
    subst hd
    have hstep : cleanStep false (out, out.length) ['.', '.'] =
        (pushElem false out ['.', '.'], (pushElem false out ['.', '.']).length) := by
      have hp : (if 0 < out.length then out ++ ['/'] else out) ++ ['.', '.'] =
          pushElem false out ['.', '.'] := by
        unfold pushElem
        cases out with
        | nil => rfl
        | cons x xs => simp
      unfold cleanStep
      rw [if_neg (by decide), if_pos rfl, if_neg (lt_irrefl _)]
      simp only [Bool.not_false, if_true, hp]
    rw [List.foldl_cons, List.foldl_cons, hstep]
    exact ih (fun x hx => hdots x (List.mem_cons_of_mem _ hx)) _

theorem foldl_cleanStep_reals (rooted : Bool) (cs : List Str)
    (hcs : ∀ e ∈ cs, goodElem e ∧ e ≠ ['.', '.']) :
    ∀ (out : Str) (dotdot : Nat), cs.foldl (cleanStep rooted) (out, dotdot) =
      (cs.foldl (pushElem rooted) out, dotdot) := by
  induction cs with
  | nil => intro out dotdot; rfl
  | cons e es ih =>
    intro out dotdot
    have he := hcs e (List.mem_cons_self _ _)
    have hstep : cleanStep rooted (out, dotdot) e = (pushElem rooted out e, dotdot) := by
      unfold cleanStep
      rw [if_neg (fun h => h.elim he.1.1 he.1.2.1), if_neg he.2]
      rfl
    rw [List.foldl_cons, List.foldl_cons, hstep]
    exact ih (fun x hx => hcs x (List.mem_cons_of_mem _ hx)) _ _

/-- Cleaning the result of the loop again gives the same path. -/
theorem Clean_cleanFinish (rooted : Bool) (st : Str × Nat) (hinv : cleanInv rooted st)
    (hnf : cleanNF rooted st) : Clean (cleanFinish st.1) = cleanFinish st.1 := by
  obtain ⟨dots, cs, hdots, hr, hcs, hout, hdd⟩ := hnf
  by_cases hempty : st.1 = []
  · rw [hempty]
    decide
  · have hfin : cleanFinish st.1 = st.1 := by
      unfold cleanFinish
      rw [if_neg (fun h => hempty (List.length_eq_zero.mp h))]
    have habs : IsAbs st.1 = rooted := by
      rw [← hfin]
      exact IsAbs_cleanFinish rooted st hinv
    have hgood : ∀ e ∈ dots ++ cs, goodElem e := by
      intro e he
      rcases List.mem_append.mp he with h | h
      · rw [hdots e h]
        exact ⟨by decide, by decide, by decide⟩
      · exact (hcs e h).1
    have hfold : (splitSlash st.1).foldl (cleanStep rooted) (cleanInit rooted) =
        (st.1, (renderFrom rooted dots).length) := by
      rw [← foldl_cleanStep_components_only]
      have hcomp : (splitSlash st.1).filter (fun c => c ≠ [] ∧ c ≠ ['.']) = dots ++ cs := by
        have := components_renderFrom rooted (dots ++ cs) hgood
        rw [← hout] at this
        exact this
      rw [hcomp, List.foldl_append]
      cases rooted
      · have h1 := foldl_cleanStep_dots dots hdots []
        have h2 : cleanInit false = (([] : Str), ([] : Str).length) := rfl
        rw [h2, h1, foldl_cleanStep_reals false cs hcs, hout, renderFrom_append]
        rfl
      · have hd := hr rfl
        subst hd
        rw [List.foldl_nil]
        have h2 : cleanInit true = (['/'], 1) := rfl
        rw [h2, foldl_cleanStep_reals true cs hcs, hout]
        rfl
    rw [hfin, Clean_eq_foldl, habs, hfold]
    simp only
    exact hfin

/-- The state in which `filepath.Clean` leaves its loop satisfies both loop
invariants. -/
theorem Clean_state (path : Str) :
    cleanInv (IsAbs path)
      ((splitSlash path).foldl (cleanStep (IsAbs path)) (cleanInit (IsAbs path))) ∧
    cleanNF (IsAbs path)
      ((splitSlash path).foldl (cleanStep (IsAbs path)) (cleanInit (IsAbs path))) :=
  ⟨foldl_cleanStep_inv _ _ _ (splitSlash_sepFree path) (cleanInit_inv _),
    foldl_cleanStep_NF _ _ _ (splitSlash_sepFree path) (cleanInit_NF _)⟩

/-- The function `filepath.Clean` is idempotent. -/
theorem Clean_idempotent (path : Str) : Clean (Clean path) = Clean path := by
  have h := Clean_eq_foldl path
  have hst := Clean_state path
  have : Clean path = cleanFinish
      ((splitSlash path).foldl (cleanStep (IsAbs path)) (cleanInit (IsAbs path))).1 := h
  rw [this]
  exact Clean_cleanFinish _ _ hst.1 hst.2

theorem stripComponents_some (xs : List Str) :
    ∀ ys rest, stripComponents xs ys = some rest → ys = xs ++ rest := by
  induction xs with
  | nil =>
    intro ys rest h
    simp only [stripComponents, Option.some.injEq] at h
    rw [h, List.nil_append]
  | cons x xs ih =>
    intro ys rest h
    cases ys with
    | nil => simp [stripComponents] at h
    | cons y ys =>
      rw [stripComponents] at h
      split at h
      · rename_i hxy
        rw [hxy, ih ys rest h, List.cons_append]
      · simp at h

/-- A joined path that lies inside the directory component-wise passes the
string-prefix test of `unpackTarGz`, unless the directory cleans to `.`. -/
theorem isWithin_hasPrefix (dstDir name : Str) (hdot : Clean dstDir ≠ ['.'])
    (hw : isWithin dstDir (Join [dstDir, name]) = true) :
    filepathHasPrefix (Clean (Join [dstDir, name])) (Clean dstDir) = true := by
  have hdir : dstDir ≠ [] := by
    intro h
    rw [h] at hdot
    exact hdot rfl
  have habs : IsAbs (dstDir ++ '/' :: name) = IsAbs dstDir := by
    cases dstDir with
    | nil => exact absurd rfl hdir
    | cons c cs => rw [List.cons_append, IsAbs_cons, IsAbs_cons]
  obtain ⟨hinv1, hnf1⟩ := Clean_state dstDir
  have hinv2 := foldl_cleanStep_inv (IsAbs dstDir) (splitSlash name) _
    (splitSlash_sepFree name) hinv1
  have hnf2 := foldl_cleanStep_NF (IsAbs dstDir) (splitSlash name) _
    (splitSlash_sepFree name) hnf1
  have hcd : Clean dstDir = cleanFinish
      ((splitSlash dstDir).foldl (cleanStep (IsAbs dstDir)) (cleanInit (IsAbs dstDir))).1 :=
    Clean_eq_foldl dstDir
  have hcj : Join [dstDir, name] = cleanFinish
      ((splitSlash name).foldl (cleanStep (IsAbs dstDir))
        ((splitSlash dstDir).foldl (cleanStep (IsAbs dstDir)) (cleanInit (IsAbs dstDir)))).1 := by
    rw [Join_pair dstDir name hdir, Clean_eq_foldl, habs, splitSlash_append, List.foldl_append]
    rfl
  generalize (splitSlash dstDir).foldl (cleanStep (IsAbs dstDir)) (cleanInit (IsAbs dstDir)) = sd
    at hinv1 hnf1 hinv2 hnf2 hcd hcj
  generalize (splitSlash name).foldl (cleanStep (IsAbs dstDir)) sd = st
    at hinv2 hnf2 hcj
  have hidem := Clean_cleanFinish (IsAbs dstDir) st hinv2 hnf2
  obtain ⟨dots1, cs1, hdots1, _, hcs1, hout1, _⟩ := hnf1
  obtain ⟨dots2, cs2, hdots2, _, hcs2, hout2, _⟩ := hnf2
  have hgood1 : ∀ e ∈ dots1 ++ cs1, goodElem e := by
    intro e he
    rcases List.mem_append.mp he with h | h
    · rw [hdots1 e h]
      exact ⟨by decide, by decide, by decide⟩
    · exact (hcs1 e h).1
  have hgood2 : ∀ e ∈ dots2 ++ cs2, goodElem e := by
    intro e he
    rcases List.mem_append.mp he with h | h
    · rw [hdots2 e h]
      exact ⟨by decide, by decide, by decide⟩
    · exact (hcs2 e h).1
  have hc1 : components (Clean dstDir) = dots1 ++ cs1 := by
    rw [hcd, components_cleanFinish, hout1, components_renderFrom _ _ hgood1]
  have hc2 : components (Join [dstDir, name]) = dots2 ++ cs2 := by
    rw [hcj, components_cleanFinish, hout2, components_renderFrom _ _ hgood2]
  unfold isWithin at hw
  rw [Bool.and_eq_true, hc1, hc2] at hw
  have hstrip : ∃ rest, stripComponents (dots1 ++ cs1) (dots2 ++ cs2) = some rest := by
    cases hs : stripComponents (dots1 ++ cs1) (dots2 ++ cs2) with
    | none =>
      rw [hs] at hw
      exact absurd hw.2 (by simp)
    | some rest => exact ⟨rest, rfl⟩
  obtain ⟨rest, hrest⟩ := hstrip
  have happ := stripComponents_some _ _ _ hrest
  have hpre : sd.1 <+: st.1 := by
    rw [hout1, hout2, happ, renderFrom_append (IsAbs dstDir) (dots1 ++ cs1) rest]
    exact foldl_pushElem_mono _ _ _
  have hsd : sd.1 ≠ [] := by
    intro h
    apply hdot
    rw [hcd, h]
    rfl
  have hst : st.1 ≠ [] := by
    intro h
    rw [h] at hpre
    exact hsd (List.prefix_nil.mp hpre)
  have hf1 : cleanFinish sd.1 = sd.1 := by
    unfold cleanFinish
    rw [if_neg (fun h => hsd (List.length_eq_zero.mp h))]
  have hf2 : cleanFinish st.1 = st.1 := by
    unfold cleanFinish
    rw [if_neg (fun h => hst (List.length_eq_zero.mp h))]
  rw [hcj, hidem, hcd, hf1, hf2]
  unfold filepathHasPrefix HasPrefix
  rw [List.isPrefixOf_iff_prefix]
  exact hpre


/-! ## Facts about the file-system calls -/

theorem FS.get_put_self (fs : FS) (k : Str) (n : Node) : (fs.put k n).get k = some n := by
  simp [FS.get, FS.put, List.lookup]

theorem lookup_filter_ne (fs : FS) (k k1 : Str) (hne : k ≠ k1) :
    (fs.filter (fun kv => kv.1 ≠ k1)).lookup k = fs.lookup k := by
  induction fs with
  | nil => rfl
  | cons kv rest ih =>
    rcases kv with ⟨a, n⟩
    by_cases ha : a = k1
    · subst ha
      have hk : (k == a) = false := by simpa using hne
      rw [List.filter_cons, if_neg (by simp), List.lookup_cons, hk]
      exact ih
    · rw [List.filter_cons, if_pos (by simpa using ha), List.lookup_cons, List.lookup_cons, ih]

theorem FS.get_put_ne (fs : FS) (k k1 : Str) (n : Node) (hne : k ≠ k1) :
    (fs.put k1 n).get k = fs.get k := by
  have hk : (k == k1) = false := by simpa using hne
  unfold FS.get FS.put
  rw [List.lookup_cons, hk]
  exact lookup_filter_ne fs k k1 hne

theorem keepsDirs_refl (fs : FS) : keepsDirs fs fs := fun _ _ h => h

theorem keepsDirs_trans (a b c : FS) (h1 : keepsDirs a b) (h2 : keepsDirs b c) : keepsDirs a c :=
  fun k p h => h2 k p (h1 k p h)

/-- Storing a node under a name that holds no directory keeps every directory. -/
theorem keepsDirs_put (fs : FS) (real : Str) (n : Node)
    (hfree : ∀ p, fs.get real ≠ some (.dir p)) : keepsDirs fs (fs.put real n) := by
  intro k p hk
  have hne : k ≠ real := by
    intro h
    rw [h] at hk
    exact hfree p hk
  rw [FS.get_put_ne fs k real n hne]
  exact hk

theorem done_fail_sound (fs : FS) (errno : Errno) (r : Resolved)
    (h : Walk.done (Resolved.fail errno) = Walk.done r) :
    (∀ real n, r = .found real n → fs.get real = some n) ∧
    (∀ real, r = .missing real → fs.get real = none) := by
  injection h with h
  subst h
  constructor
  · intro _ _ hm
    cases hm
  · intro _ hm
    cases hm

theorem done_found_sound (fs : FS) (k : Str) (m : Node) (r : Resolved) (hk : fs.get k = some m)
    (h : Walk.done (Resolved.found k m) = Walk.done r) :
    (∀ real n, r = .found real n → fs.get real = some n) ∧
    (∀ real, r = .missing real → fs.get real = none) := by
  injection h with h
  subst h
  constructor
  · intro real n hm
    injection hm with h1 h2
    subst h1
    subst h2
    exact hk
  · intro _ hm
    cases hm

theorem done_missing_sound (fs : FS) (k : Str) (r : Resolved) (hk : fs.get k = none)
    (h : Walk.done (Resolved.missing k) = Walk.done r) :
    (∀ real n, r = .found real n → fs.get real = some n) ∧
    (∀ real, r = .missing real → fs.get real = none) := by
  injection h with h
  subst h
  constructor
  · intro _ _ hm
    cases hm
  · intro real hm
    injection hm with h1
    subst h1
    exact hk

/-- What the walk reports as found or missing is so in the file system. -/
theorem walkComps_sound (fs : FS) (follow : Bool) (cs : List Str) :
    ∀ cur r, walkComps fs follow cur cs = .done r →
      (∀ real n, r = .found real n → fs.get real = some n) ∧
      (∀ real, r = .missing real → fs.get real = none) := by
  induction cs with
  | nil =>
    intro cur r h
    rw [walkComps] at h
    split at h
    · rename_i n hn
      exact done_found_sound fs cur n r hn h
    · exact done_fail_sound fs _ r h
  | cons c cs ih =>
    intro cur r h
    rw [walkComps] at h
    split at h
    · simp only at h
      split at h
      · rename_i hnext
        split at h
        · exact done_missing_sound fs _ r hnext h
        · exact done_fail_sound fs _ r h
      · rename_i t hnext
        split at h
        · exact done_found_sound fs _ _ r hnext h
        · cases h
      · exact ih _ r h
    · exact done_fail_sound fs _ r h
    · exact done_fail_sound fs _ r h

theorem resolve_sound (fs : FS) (follow : Bool) (n : Nat) :
    ∀ cur cs,
      (∀ real m, resolve fs follow n cur cs = .found real m → fs.get real = some m) ∧
      (∀ real, resolve fs follow n cur cs = .missing real → fs.get real = none) := by
  induction n with
  | zero =>
    intro cur cs
    rw [resolve]
    cases hw : walkComps fs follow cur cs with
    | done r =>
      have hs := walkComps_sound fs follow cs cur r hw
      constructor
      · intro real m h
        exact hs.1 real m h
      · intro real h
        exact hs.2 real h
    | link d t rest =>
      constructor
      · intro _ _ h
        cases h
      · intro _ h
        cases h
  | succ n ih =>
    intro cur cs
    rw [resolve]
    cases hw : walkComps fs follow cur cs with
    | done r =>
      have hs := walkComps_sound fs follow cs cur r hw
      constructor
      · intro real m h
        exact hs.1 real m h
      · intro real h
        exact hs.2 real h
    | link d t rest =>
      simp only
      split
      · constructor
        · intro _ _ h
          cases h
        · intro _ h
          cases h
      · exact ih _ _

theorem lookupPath_found (fs : FS) (follow : Bool) (path real : Str) (n : Node)
    (h : lookupPath fs follow path = .found real n) : fs.get real = some n := by
  unfold lookupPath at h
  split at h
  · cases h
  · exact (resolve_sound fs follow 40 _ _).1 real n h

theorem lookupPath_missing (fs : FS) (follow : Bool) (path real : Str)
    (h : lookupPath fs follow path = .missing real) : fs.get real = none := by
  unfold lookupPath at h
  split at h
  · cases h
  · exact (resolve_sound fs follow 40 _ _).2 real h

theorem Symlink_keepsDirs (oldname newname : Str) (fs fs1 : FS)
    (h : Symlink oldname newname fs = .ok fs1) : keepsDirs fs fs1 := by
  unfold Symlink at h
  split at h
  · cases h
  · split at h
    · cases h
    · rename_i real hm
      injection h with h
      subst h
      refine keepsDirs_put fs real _ ?_
      intro p hp
      rw [lookupPath_missing fs false newname real hm] at hp
      cases hp
    · cases h

theorem Mkdir_keepsDirs (name : Str) (perm : Nat) (fs fs1 : FS)
    (h : Mkdir name perm fs = .ok fs1) : keepsDirs fs fs1 := by
  unfold Mkdir at h
  split at h
  · cases h
  · rename_i real hm
    injection h with h
    subst h
    refine keepsDirs_put fs real _ ?_
    intro p hp
    rw [lookupPath_missing fs false name real hm] at hp
    cases hp
  · cases h

theorem mkdirAllRev_keepsDirs (rooted : Bool) (perm : Nat) (rcs : List Str) :
    ∀ fs fs1, mkdirAllRev rooted perm rcs fs = .ok fs1 → keepsDirs fs fs1 := by
  induction rcs with
  | nil =>
    intro fs fs1 h
    rw [mkdirAllRev] at h
    injection h with h
    subst h
    exact keepsDirs_refl fs
  | cons c rrest ih =>
    intro fs fs1 h
    rw [mkdirAllRev] at h
    split at h
    · injection h with h
      subst h
      exact keepsDirs_refl fs
    · cases h
    · split at h
      · cases h
      · rename_i fs2 hrec
        have h12 := ih fs fs2 hrec
        split at h
        · rename_i fs3 hmk
          injection h with h
          subst h
          exact keepsDirs_trans fs fs2 _ h12 (Mkdir_keepsDirs _ perm fs2 _ hmk)
        · split at h
          · injection h with h
            subst h
            exact h12
          · cases h

theorem MkdirAll_keepsDirs (path : Str) (perm : Nat) (fs fs1 : FS)
    (h : MkdirAll path perm fs = .ok fs1) : keepsDirs fs fs1 := by
  unfold MkdirAll at h
  split at h
  · cases h
  · exact mkdirAllRev_keepsDirs _ perm _ fs fs1 h

theorem OpenFile_keepsDirs (name : Str) (flag perm : Nat) (fs fs1 : FS) (file : Str)
    (h : OpenFile name flag perm fs = .ok (file, fs1)) : keepsDirs fs fs1 := by
  unfold OpenFile at h
  split at h
  · rename_i real p d hf
    have hget := lookupPath_found fs true name real _ hf
    split at h
    · injection h with h
      injection h with h1 h2
      subst h2
      refine keepsDirs_put fs real _ ?_
      intro q hq
      rw [hget] at hq
      cases hq
    · injection h with h
      injection h with h1 h2
      subst h2
      exact keepsDirs_refl fs
  · cases h
  · cases h
  · rename_i real hm
    split at h
    · injection h with h
      injection h with h1 h2
      subst h2
      refine keepsDirs_put fs real _ ?_
      intro q hq
      rw [lookupPath_missing fs true name real hm] at hq
      cases hq
    · cases h
  · cases h

theorem ioCopy_keepsDirs (file : Str) (bytes : List Nat) (fs : FS) :
    keepsDirs fs (ioCopy file bytes fs) := by
  unfold ioCopy
  split
  · rename_i p d hf
    refine keepsDirs_put fs file _ ?_
    intro q hq
    rw [hf] at hq
    cases hq
  · exact keepsDirs_refl fs

/-- No step of the extraction removes or replaces a directory. -/
theorem extractEntry_keepsDirs (dstDir : Str) (e : Entry) (fs : FS) :
    keepsDirs fs (extractEntry dstDir e fs).1 := by
  unfold extractEntry
  simp only
  split
  · exact keepsDirs_refl fs
  · split
    · split
      · exact keepsDirs_refl fs
      · split
        · exact keepsDirs_refl fs
        · rename_i fs1 hs
          exact Symlink_keepsDirs _ _ fs fs1 hs
    · split
      · split
        · exact keepsDirs_refl fs
        · rename_i fs1 hs
          exact MkdirAll_keepsDirs _ _ fs fs1 hs
      · split
        · split
          · exact keepsDirs_refl fs
          · rename_i file fs1 hs
            exact keepsDirs_trans fs fs1 _ (OpenFile_keepsDirs _ _ _ fs fs1 file hs)
              (ioCopy_keepsDirs file e.body fs1)
        · exact keepsDirs_refl fs

theorem extractEntries_keepsDirs (dstDir : Str) (es : List Entry) (tail : Option Err) :
    ∀ fs, keepsDirs fs (extractEntries dstDir es tail fs).1 := by
  induction es with
  | nil => intro fs; exact keepsDirs_refl fs
  | cons e es ih =>
    intro fs
    rw [extractEntries]
    have he := extractEntry_keepsDirs dstDir e fs
    rcases hx : extractEntry dstDir e fs with ⟨fs1, _ | err⟩
    · rw [hx] at he
      exact keepsDirs_trans fs fs1 _ he (ih fs1)
    · rw [hx] at he
      exact he

theorem unpackTarGz_keepsDirs (tarContent : TarGz) (dstDir : Str) (fs : FS) :
    keepsDirs fs (unpackTarGz tarContent dstDir fs).1 := by
  unfold unpackTarGz
  split
  · exact keepsDirs_refl fs
  · split
    · exact keepsDirs_refl fs
    · exact extractEntries_keepsDirs dstDir _ _ fs

theorem lookup_mem (fs : FS) (k : Str) (n : Node) (h : fs.lookup k = some n) : (k, n) ∈ fs := by
  induction fs with
  | nil => cases h
  | cons kv rest ih =>
    rcases kv with ⟨a, m⟩
    rw [List.lookup_cons] at h
    cases hka : (k == a)
    · rw [hka] at h
      exact List.mem_cons_of_mem _ (ih h)
    · rw [hka] at h
      have : k = a := by simpa using hka
      injection h with h
      subst this
      subst h
      exact List.mem_cons_self _ _

/-- When `os.RemoveAll(dir)` returns no error for a non-empty name `dir`,
neither `dir` nor a path below it exists any more. -/
theorem RemoveAll_gone (root : Bool) (dir k : Str) (fs : FS) (hne : dir ≠ [])
    (hok : (RemoveAll root dir fs).2 = none)
    (hk : k = dir ∨ HasPrefix k (dir ++ ['/']) = true) :
    (RemoveAll root dir fs).1.get k = none := by
  have hin : inTree dir k = true := by
    unfold inTree
    rcases hk with h | h
    · subst h
      simp
    · simp [h]
  unfold RemoveAll at hok ⊢
  rw [if_neg hne] at hok ⊢
  split at hok
  · cases hok
  · rename_i hdot
    rw [if_neg hdot]
    simp only at hok ⊢
    split at hok
    · cases hok
    · rename_i hany
      cases hget : FS.get (List.filter
          (fun kv => !(inTree dir kv.1 && removable root fs dir kv.1)) fs) k with
      | none => rfl
      | some n =>
        exfalso
        apply hany
        rw [List.any_eq_true]
        exact ⟨(k, n), lookup_mem _ k n hget, hin⟩
/-! ## Facts about the extractor -/

theorem findLayer_skip (e : OuterEntry) (es : List OuterEntry) (tail : Option Err)
    (he : ¬ isLayer e.hdr) : findLayer (e :: es) tail = findLayer es tail := by
  rw [findLayer]
  split
  · rfl
  · rename_i ht
    split
    · rfl
    · rename_i hs
      exact absurd ⟨not_not.mp ht, by simpa using hs⟩ he

theorem findLayer_hit (e : OuterEntry) (es : List OuterEntry) (tail : Option Err)
    (he : isLayer e.hdr) : findLayer (e :: es) tail = .ok e.body := by
  rw [findLayer]
  split
  · rename_i ht
    exact absurd he.1 ht
  · split
    · rename_i hs
      rw [he.2] at hs
      simp at hs
    · rfl

theorem findLayer_none (entries : List OuterEntry)
    (hno : ∀ e ∈ entries, ¬ isLayer e.hdr) :
    findLayer entries none = .error .layerNotFound := by
  induction entries with
  | nil => rfl
  | cons e es ih =>
    rw [findLayer_skip e es none (hno e (List.mem_cons_self _ _))]
    exact ih (fun x hx => hno x (List.mem_cons_of_mem _ hx))

theorem findLayer_first (pre : List OuterEntry) (e : OuterEntry) (post : List OuterEntry)
    (tail : Option Err) (hpre : ∀ x ∈ pre, ¬ isLayer x.hdr) (he : isLayer e.hdr) :
    findLayer (pre ++ e :: post) tail = .ok e.body := by
  induction pre with
  | nil => exact findLayer_hit e post tail he
  | cons x xs ih =>
    rw [List.cons_append, findLayer_skip x _ tail (hpre x (List.mem_cons_self _ _))]
    exact ih (fun y hy => hpre y (List.mem_cons_of_mem _ hy))

theorem extractEntries_append {σ : Type} [OsCalls σ] (dstDir : Str) (pre : List Entry)
    (rest : List Entry) (tail : Option Err) (fs fs1 : σ)
    (hpre : extractEntries dstDir pre none fs = (fs1, none)) :
    extractEntries dstDir (pre ++ rest) tail fs = extractEntries dstDir rest tail fs1 := by
  induction pre generalizing fs with
  | nil =>
    rw [extractEntries] at hpre
    have : fs = fs1 := congrArg Prod.fst hpre
    rw [List.nil_append, this]
  | cons x xs ih =>
    rw [List.cons_append, extractEntries]
    rw [extractEntries] at hpre
    rcases hx : extractEntry dstDir x fs with ⟨fs2, _ | err⟩
    · rw [hx] at hpre
      exact ih fs2 hpre
    · rw [hx] at hpre
      simp at hpre

theorem extractEntry_unsupported {σ : Type} [OsCalls σ] (dstDir : Str) (e : Entry) (fs : σ)
    (hin : filepathHasPrefix (Clean (Join [dstDir, e.hdr.Name])) (Clean dstDir) = true)
    (hreg : e.hdr.Typeflag ≠ TypeReg) (hdir : e.hdr.Typeflag ≠ TypeDir)
    (hsym : e.hdr.Typeflag ≠ TypeSymlink) :
    extractEntry dstDir e fs = (fs, some (.unsupported e.hdr)) := by
  unfold extractEntry
  simp [hin, hreg, hdir, hsym]

/-- The same for a target path that is contained in the destination
component-wise, when the destination does not clean to `.`. -/
theorem extractEntry_unsupported_within {σ : Type} [OsCalls σ] (dstDir : Str) (e : Entry)
    (fs : σ)
    (hdot : Clean dstDir ≠ ['.'])
    (hin : isWithin dstDir (Join [dstDir, e.hdr.Name]) = true)
    (hreg : e.hdr.Typeflag ≠ TypeReg) (hdir : e.hdr.Typeflag ≠ TypeDir)
    (hsym : e.hdr.Typeflag ≠ TypeSymlink) :
    extractEntry dstDir e fs = (fs, some (.unsupported e.hdr)) :=
  extractEntry_unsupported dstDir e fs (isWithin_hasPrefix dstDir e.hdr.Name hdot hin)
    hreg hdir hsym

/-- **C4.** An outer stream that ends without a regular-file entry whose name
ends in `/layer.tar` makes `unpackTarGz` return the "layer.tar not found" error
and leave the file system as it was; and when the outer stream has such an
entry, what is extracted is the content of the first one in stream order. -/
theorem unpackTarGz_layer (dstDir : Str) (fs : FS) :
    (∀ entries : List OuterEntry, (∀ e ∈ entries, ¬ isLayer e.hdr) →
      unpackTarGz (.stream entries none) dstDir fs = (fs, some .layerNotFound)) ∧
    (∀ (pre : List OuterEntry) (e : OuterEntry) (post : List OuterEntry) (tail : Option Err),
      (∀ x ∈ pre, ¬ isLayer x.hdr) → isLayer e.hdr →
      unpackTarGz (.stream (pre ++ e :: post) tail) dstDir fs =
        extractEntries dstDir e.body.entries e.body.tail fs) := by
  constructor
  · intro entries hno
    simp only [unpackTarGz, findLayer_none entries hno]
  · intro pre e post tail hpre he
    simp only [unpackTarGz, findLayer_first pre e post tail hpre he]

/-- **C10 (amended).** In the nested stream, an entry whose target path is
contained in the destination component-wise, for a destination that does not
clean to `.`, and whose type is none of regular file, directory or symlink
makes `unpackTarGz` return the unsupported-entry-type error at that entry,
whatever the `os` calls do: when the entries before it were extracted without
error, the result is that error together with the state those entries left,
whatever follows the entry. -/
theorem unpackTarGz_unsupported {σ : Type} [OsCalls σ] (outer : List OuterEntry)
    (otail : Option Err) (dstDir : Str) (pre : List Entry) (e : Entry) (post : List Entry)
    (tail : Option Err) (fs fs1 : σ)
    (hlayer : findLayer outer otail = .ok ⟨pre ++ e :: post, tail⟩)
    (hpre : extractEntries dstDir pre none fs = (fs1, none))
    (hdot : Clean dstDir ≠ ['.'])
    (hin : isWithin dstDir (Join [dstDir, e.hdr.Name]) = true)
    (hreg : e.hdr.Typeflag ≠ TypeReg) (hdir : e.hdr.Typeflag ≠ TypeDir)
    (hsym : e.hdr.Typeflag ≠ TypeSymlink) :
    unpackTarGz (.stream outer otail) dstDir fs = (fs1, some (.unsupported e.hdr)) := by
  simp only [unpackTarGz, hlayer]
  rw [extractEntries_append dstDir pre (e :: post) tail fs fs1 hpre, extractEntries,
    extractEntry_unsupported_within dstDir e fs1 hdot hin hreg hdir hsym]

/-- **C10 as stated fails.** With the destination `.` the hard-link entry `x`
has the target `x`, which is inside `.` component-wise, but `.` is not a string
prefix of `x`: `unpackTarGz` returns the path-escape error, not the
unsupported-entry-type error. -/
theorem unpackTarGz_unsupported_counterexample :
    isWithin ".".toList (Join [".".toList, "x".toList]) = true ∧
    TypeLink ≠ TypeReg ∧ TypeLink ≠ TypeDir ∧ TypeLink ≠ TypeSymlink ∧
    unpackTarGz (imageOf [⟨⟨TypeLink, "x".toList, "y".toList, 420⟩, [], none⟩]) ".".toList
        ([(".".toList, Node.dir 493)] : FS) =
      ([(".".toList, Node.dir 493)], some (.pathEscape "x".toList ".".toList)) := by
  decide

/-! ### What the extractor does do at the entries of the three checks -/

/-- An entry whose cleaned target path does not have the cleaned destination as
a string prefix ends the extraction with the path-escape error and changes
nothing. -/
theorem extractEntry_pathEscape (dstDir : Str) (e : Entry) (fs : FS)
    (hout : filepathHasPrefix (Clean (Join [dstDir, e.hdr.Name])) (Clean dstDir) = false) :
    extractEntry dstDir e fs = (fs, some (.pathEscape (Join [dstDir, e.hdr.Name]) dstDir)) := by
  unfold extractEntry
  simp [hout]

/-- A symlink entry whose link text, joined onto the entry's own target path and
cleaned, does not have the cleaned destination as a string prefix ends the
extraction with the link-escape error and creates nothing. -/
theorem extractEntry_linkEscape (dstDir : Str) (e : Entry) (fs : FS)
    (hin : filepathHasPrefix (Clean (Join [dstDir, e.hdr.Name])) (Clean dstDir) = true)
    (hsym : e.hdr.Typeflag = TypeSymlink)
    (hout : filepathHasPrefix (Clean (Join [Join [dstDir, e.hdr.Name], e.hdr.Linkname]))
      (Clean dstDir) = false) :
    extractEntry dstDir e fs =
      (fs, some (.linkEscape (Join [Join [dstDir, e.hdr.Name], e.hdr.Linkname]) dstDir
        (Join [dstDir, e.hdr.Name]) e.hdr.Linkname)) := by
  unfold extractEntry
  simp [hin, hsym, hout]

/-- A symlink entry that passes both tests, at a name that does not exist yet
in an existing directory, creates a symlink that stores the entry's link text
as it is. -/
theorem extractEntry_symlink (dstDir : Str) (e : Entry) (fs : FS) (real : Str)
    (hin : filepathHasPrefix (Clean (Join [dstDir, e.hdr.Name])) (Clean dstDir) = true)
    (hsym : e.hdr.Typeflag = TypeSymlink)
    (hlink : filepathHasPrefix (Clean (Join [Join [dstDir, e.hdr.Name], e.hdr.Linkname]))
      (Clean dstDir) = true)
    (htext : e.hdr.Linkname ≠ [])
    (hfree : lookupPath fs false (Join [dstDir, e.hdr.Name]) = .missing real) :
    extractEntry dstDir e fs = (fs.put real (.symlink e.hdr.Linkname), none) := by
  unfold extractEntry
  simp [hin, hsym, hlink, OsCalls.Symlink, Symlink, hfree, htext]

/-- A regular-file entry that passes the containment test, at a name that does
not exist yet in an existing directory, leaves a file that holds exactly the
entry's bytes and was created with the entry's permission bits. -/
theorem extractEntry_reg_fresh (dstDir : Str) (e : Entry) (fs : FS) (real : Str)
    (hin : filepathHasPrefix (Clean (Join [dstDir, e.hdr.Name])) (Clean dstDir) = true)
    (hreg : e.hdr.Typeflag = TypeReg)
    (hfree : lookupPath fs true (Join [dstDir, e.hdr.Name]) = .missing real) :
    (extractEntry dstDir e fs).2 = e.bodyErr ∧
    (extractEntry dstDir e fs).1.get real =
      some (.file (syscallMode (FileMode e.hdr.Mode)) e.body) := by
  have h1 : TypeReg ≠ TypeSymlink := by decide
  have h2 : TypeReg ≠ TypeDir := by decide
  have h3 : (O_CREATE ||| O_RDWR) &&& O_CREATE ≠ 0 := by decide
  unfold extractEntry
  simp only [hin, hreg, Bool.not_true, Bool.false_eq_true, if_false, if_neg h1, if_neg h2,
    if_true, OsCalls.OpenFile, OsCalls.Write, OpenFile, hfree, if_pos h3, ioCopy,
    FS.get_put_self]
  simp [FS.get_put_self]

/-! ## Facts about the launcher -/

theorem foldl_snoc_map {α β : Type} (f : α → β) (l : List α) (init : List β) :
    l.foldl (fun acc x => acc ++ [f x]) init = init ++ l.map f := by
  induction l generalizing init with
  | nil => simp
  | cons x xs ih => simp [List.foldl_cons, ih]

/-- The entry of the child environment that `run` derives from one entry of the
launcher environment. -/
theorem buildEnvs_eq_map (tmpDir : Str) (environ : List Str) :
    buildEnvs tmpDir environ =
      environ.map (fun env =>
        if HasPrefix env "PATH=".toList then
          "PATH=".toList ++ Join [tmpDir, "bin".toList] ++ ":".toList ++
            Getenv environ "PATH".toList
        else env) := by
  unfold buildEnvs
  rw [foldl_snoc_map]
  rfl

theorem takeWhile_key (s k : Str) (hc : s.contains '=' = true)
    (hk : s.takeWhile (fun c => c != '=') = k) :
    ∃ v, s = k ++ '=' :: v ∧ (s.dropWhile (fun c => c != '=')).drop 1 = v := by
  induction s generalizing k with
  | nil => simp at hc
  | cons c cs ih =>
    by_cases hce : c = '='
    · subst hce
      simp [List.takeWhile] at hk
      subst hk
      exact ⟨cs, by simp, by simp [List.dropWhile]⟩
    · have hne : (c != '=') = true := by simpa using hce
      have hc2 : cs.contains '=' = true := by
        simp only [List.contains_cons, Bool.or_eq_true] at hc
        rcases hc with h | h
        · have : '=' = c := by simpa using h
          exact absurd this.symm hce
        · exact h
      rw [List.takeWhile_cons, if_pos hne] at hk
      obtain ⟨v, hv1, hv2⟩ := ih (cs.takeWhile (fun c => c != '=')) hc2 rfl
      refine ⟨v, ?_, ?_⟩
      · rw [← hk, List.cons_append, ← hv1]
      · rw [List.dropWhile_cons, if_pos hne]
        exact hv2

theorem pathKey_of_hasPrefix (v : Str) :
    (("PATH=".toList ++ v).contains '=' &&
      ("PATH=".toList ++ v).takeWhile (fun c => c != '=') == "PATH".toList) = true := by
  simp [List.takeWhile]

theorem hasPrefix_of_pathKey (s : Str)
    (h : (s.contains '=' && s.takeWhile (fun c => c != '=') == "PATH".toList) = true) :
    HasPrefix s "PATH=".toList = true := by
  rw [Bool.and_eq_true] at h
  obtain ⟨v, hv, _⟩ := takeWhile_key s "PATH".toList h.1 (by simpa using h.2)
  rw [hv]
  simp [HasPrefix, List.isPrefixOf]

/-- The value `os.Getenv("PATH")` returns is the text after `PATH=` of the first
entry of the environment that starts with `PATH=`. -/
theorem Getenv_PATH (pre : List Str) (v : Str) (post : List Str)
    (hpre : ∀ e ∈ pre, HasPrefix e "PATH=".toList = false) :
    Getenv (pre ++ ("PATH=".toList ++ v) :: post) "PATH".toList = v := by
  have hfind : (pre ++ ("PATH=".toList ++ v) :: post).find?
      (fun s => s.contains '=' && s.takeWhile (fun c => c != '=') == "PATH".toList)
      = some ("PATH=".toList ++ v) := by
    induction pre with
    | nil =>
      rw [List.nil_append, List.find?_cons, pathKey_of_hasPrefix]
    | cons e es ih =>
      have he : (e.contains '=' && e.takeWhile (fun c => c != '=') == "PATH".toList) = false := by
        cases hh : (e.contains '=' && e.takeWhile (fun c => c != '=') == "PATH".toList)
        · rfl
        · have := hasPrefix_of_pathKey e hh
          rw [hpre e (List.mem_cons_self _ _)] at this
          exact absurd this (by simp)
      rw [List.cons_append, List.find?_cons, he]
      exact ih (fun x hx => hpre x (List.mem_cons_of_mem _ hx))
  unfold Getenv
  rw [if_neg (by decide), hfind]
  simp [List.dropWhile]

theorem run_environ (h : Host) (p : Proc) : (run h p).proc.Environ = p.Environ := by
  unfold run
  split
  · rfl
  · split
    · rfl
    · rename_i tmpDir fs1 _
      have hb : ∀ q : Proc, (runBody h q tmpDir).proc.Environ = q.Environ := by
        intro q
        unfold runBody
        repeat' split
        all_goals rfl
      split
      · exact hb _
      · exact hb _

/-- **C9.** The child environment `run` builds has the length and order of the
launcher environment: the entry at every position is the launcher's entry at
that position, unchanged unless it starts with `PATH=`, in which case it is
`PATH=` followed by `Join(tmpDir, "bin")`, `:` and the value `os.Getenv("PATH")`
returns, which is the text after `PATH=` of the first such entry; it is the
environment of the command that is started; and `run` leaves the launcher's own
environment as it was. -/
theorem buildEnvs_spec (tmpDir : Str) (environ : List Str) :
    (buildEnvs tmpDir environ).length = environ.length ∧
    (∀ (i : Nat) (env : Str), environ[i]? = some env →
      (HasPrefix env "PATH=".toList = false → (buildEnvs tmpDir environ)[i]? = some env) ∧
      (HasPrefix env "PATH=".toList = true → (buildEnvs tmpDir environ)[i]? =
        some ("PATH=".toList ++ Join [tmpDir, "bin".toList] ++ ":".toList ++
          Getenv environ "PATH".toList))) ∧
    (∀ (pre : List Str) (v : Str) (post : List Str),
      environ = pre ++ ("PATH=".toList ++ v) :: post →
      (∀ e ∈ pre, HasPrefix e "PATH=".toList = false) → Getenv environ "PATH".toList = v) ∧
    (∀ argv : List Str, (buildCmd tmpDir argv environ).Env = buildEnvs tmpDir environ) ∧
    (∀ (h : Host) (p : Proc), (run h p).proc.Environ = p.Environ) := by
  refine ⟨?_, ?_, ?_, ?_, ?_⟩
  · rw [buildEnvs_eq_map, List.length_map]
  · intro i env hi
    rw [buildEnvs_eq_map, List.getElem?_map, hi]
    constructor
    · intro hp
      simp only [Option.map_some', hp]
      rfl
    · intro hp
      simp only [Option.map_some', hp]
      rfl
  · intro pre v post he hpre
    rw [he]
    exact Getenv_PATH pre v post hpre
  · intro argv
    rfl
  · exact run_environ

theorem runBody_result (h : Host) (q : Proc) (tmpDir : Str) :
    ∃ err, (runBody h q tmpDir).result = .returned err := by
  unfold runBody
  repeat' split
  all_goals exact ⟨_, rfl⟩

theorem runBody_trace (h : Host) (q : Proc) (tmpDir : Str) :
    ∀ ev ∈ (runBody h q tmpDir).trace, ∀ d, ev ≠ Event.removeAll d ∧ ev ≠ Event.mkdirTemp d := by
  unfold runBody
  repeat' split
  all_goals
    intro ev hev d
    constructor <;>
    · rintro rfl
      simp at hev

theorem count_removeAll_zero (l : List Event) (d : Str)
    (hl : ∀ ev ∈ l, ∀ d1, ev ≠ Event.removeAll d1 ∧ ev ≠ Event.mkdirTemp d1) :
    l.count (Event.removeAll d) = 0 := by
  rw [List.count_eq_zero]
  intro hmem
  exact (hl _ hmem d).1 rfl

theorem runBody_fs (h : Host) (q : Proc) (tmpDir : Str) :
    (runBody h q tmpDir).proc.fs = (unpackTarGz h.rootfs tmpDir q.fs).1 ∨
    (runBody h q tmpDir).proc.fs = h.childFs (unpackTarGz h.rootfs tmpDir q.fs).1 := by
  unfold runBody
  rcases hu : unpackTarGz h.rootfs tmpDir q.fs with ⟨fs1, _ | err⟩
  · simp only
    cases h.memexecNew with
    | some e1 => exact Or.inl rfl
    | none =>
      simp only
      cases cmdStart h with
      | some e2 => exact Or.inl rfl
      | none =>
        simp only
        cases cmdWait h.child h.watchErr <;> exact Or.inr rfl
  · exact Or.inl rfl

/-- The state in which `run` leaves the launcher when it has created the
directory `dir` and the deferred `cleanUp` is registered. -/
theorem run_with_cleanup (h : Host) (p : Proc) (dir : Str)
    (hargs : 2 ≤ p.Args.length) (htmp : h.mkdirTemp = .ok dir)
    (henv : Getenv p.Environ "PROOT_NO_CLEANUP".toList ≠ "1".toList) :
    run h p =
      ⟨(runBody h ⟨p.Args, p.Environ, p.fs.put dir (.dir 448)⟩ dir).result,
        ⟨(runBody h ⟨p.Args, p.Environ, p.fs.put dir (.dir 448)⟩ dir).proc.Args,
          (runBody h ⟨p.Args, p.Environ, p.fs.put dir (.dir 448)⟩ dir).proc.Environ,
          (cleanUp h.root dir
            (runBody h ⟨p.Args, p.Environ, p.fs.put dir (.dir 448)⟩ dir).proc.fs).1⟩,
        .mkdirTemp dir ::
          (runBody h ⟨p.Args, p.Environ, p.fs.put dir (.dir 448)⟩ dir).trace ++ [.removeAll dir],
        (cleanUp h.root dir
          (runBody h ⟨p.Args, p.Environ, p.fs.put dir (.dir 448)⟩ dir).proc.fs).2⟩ := by
  have hlen : ¬ p.Args.length < 2 := by omega
  unfold run createTmp
  rw [if_neg hlen, htmp]
  simp only [if_pos henv]

/-- The state in which `run` leaves the launcher when it has created the
directory `dir` and `PROOT_NO_CLEANUP` is `1`. -/
theorem run_without_cleanup (h : Host) (p : Proc) (dir : Str)
    (hargs : 2 ≤ p.Args.length) (htmp : h.mkdirTemp = .ok dir)
    (henv : Getenv p.Environ "PROOT_NO_CLEANUP".toList = "1".toList) :
    run h p =
      ⟨(runBody h ⟨p.Args, p.Environ, p.fs.put dir (.dir 448)⟩ dir).result,
        (runBody h ⟨p.Args, p.Environ, p.fs.put dir (.dir 448)⟩ dir).proc,
        .mkdirTemp dir :: (runBody h ⟨p.Args, p.Environ, p.fs.put dir (.dir 448)⟩ dir).trace,
        none⟩ := by
  have hlen : ¬ p.Args.length < 2 := by omega
  unfold run createTmp
  rw [if_neg hlen, htmp]
  simp only [if_neg (not_not.mpr henv)]

/-- Whenever `run` has created the ephemeral directory `dir` and
`PROOT_NO_CLEANUP` is not `1`, `run` returns what its body returned,
`os.RemoveAll(dir)` is called exactly once and as the last step, and when that
call returns no error neither `dir` nor a path below it exists afterwards. -/
theorem run_removes_once (h : Host) (p : Proc) (dir : Str)
    (hargs : 2 ≤ p.Args.length) (htmp : h.mkdirTemp = .ok dir)
    (henv : Getenv p.Environ "PROOT_NO_CLEANUP".toList ≠ "1".toList) :
    (∃ err, (run h p).result = .returned err) ∧
    (run h p).result = (runBody h ⟨p.Args, p.Environ, p.fs.put dir (.dir 448)⟩ dir).result ∧
    (run h p).trace.count (.removeAll dir) = 1 ∧
    (run h p).trace.getLast? = some (.removeAll dir) ∧
    (∀ d, Event.removeAll d ∈ (run h p).trace → d = dir) ∧
    (dir ≠ [] → (run h p).cleanupErr = none →
      ∀ k, k = dir ∨ HasPrefix k (dir ++ ['/']) = true → (run h p).proc.fs.get k = none) := by
  rw [run_with_cleanup h p dir hargs htmp henv]
  have htr := runBody_trace h ⟨p.Args, p.Environ, p.fs.put dir (.dir 448)⟩ dir
  refine ⟨runBody_result h _ dir, rfl, ?_, ?_, ?_, ?_⟩
  · simp only [List.cons_append, List.count_cons, List.count_append, List.count_nil,
      count_removeAll_zero _ dir htr]
    simp
  · exact List.getLast?_concat _
  · intro d hd
    simp only [List.cons_append, List.mem_cons, List.mem_append, List.mem_singleton,
      List.not_mem_nil, or_false] at hd
    rcases hd with h1 | h1 | h1
    · simp at h1
    · exact absurd rfl (htr _ h1 d).1
    · simpa using h1
  · intro hne hok k hk
    exact RemoveAll_gone h.root dir k _ hne hok hk

theorem run_keeps (h : Host) (p : Proc)
    (henv : Getenv p.Environ "PROOT_NO_CLEANUP".toList = "1".toList) :
    ∀ d, Event.removeAll d ∉ (run h p).trace := by
  intro d hd
  unfold run at hd
  split at hd
  · simp at hd
  · split at hd
    · simp at hd
    · rename_i tmpDir fs1 _
      rw [if_neg (by simpa using henv)] at hd
      simp only [List.mem_cons] at hd
      rcases hd with h1 | h1
      · simp at h1
      · exact absurd rfl (runBody_trace h _ tmpDir _ h1 d).1

/-- With `PROOT_NO_CLEANUP=1` the file system at the end of `run` is the one the
extraction left, changed by nothing but the child if it ran; the extraction
leaves the directory `run` created in place, so it is still there when the
child did not remove it. -/
theorem run_keeps_dir (h : Host) (p : Proc) (dir : Str)
    (hargs : 2 ≤ p.Args.length) (htmp : h.mkdirTemp = .ok dir)
    (henv : Getenv p.Environ "PROOT_NO_CLEANUP".toList = "1".toList) :
    ((run h p).proc.fs = (unpackTarGz h.rootfs dir (p.fs.put dir (.dir 448))).1 ∨
      (run h p).proc.fs = h.childFs (unpackTarGz h.rootfs dir (p.fs.put dir (.dir 448))).1) ∧
    (unpackTarGz h.rootfs dir (p.fs.put dir (.dir 448))).1.get dir = some (.dir 448) ∧
    ((∀ fs, keepsDirs fs (h.childFs fs)) → (run h p).proc.fs.get dir = some (.dir 448)) := by
  have hu : (unpackTarGz h.rootfs dir (p.fs.put dir (.dir 448))).1.get dir = some (.dir 448) :=
    unpackTarGz_keepsDirs h.rootfs dir _ dir 448 (FS.get_put_self p.fs dir _)
  have hfs := runBody_fs h ⟨p.Args, p.Environ, p.fs.put dir (.dir 448)⟩ dir
  rw [run_without_cleanup h p dir hargs htmp henv]
  simp only at hfs ⊢
  refine ⟨hfs, hu, ?_⟩
  intro hchild
  rcases hfs with h1 | h1
  · rw [h1]
    exact hu
  · rw [h1]
    exact hchild _ dir 448 hu

theorem run_no_args (h : Host) (p : Proc) (hargs : p.Args.length < 2) :
    run h p = ⟨.fatal, p, [.logFatal], none⟩ := by
  unfold run
  rw [if_pos hargs]

/-- **C6 (amended).** For every run: when the ephemeral directory `dir` was
created and `PROOT_NO_CLEANUP` is not `1`, then whatever the later steps do
(extraction error, `memexec.New` error, `Start` error, `Wait` error or
cancellation, success) `run` returns, `os.RemoveAll(dir)` is called exactly once
and as the last step, its error is dropped, so that `run` returns what its body
returned, and whenever the call returns no error neither `dir`, a non-empty
name, nor a path below it exists afterwards; when `PROOT_NO_CLEANUP` is `1`,
`os.RemoveAll` is never called, the file system at the end is the one the
extraction left, changed by nothing but the child if it ran, and the directory
created is still there unless the child removed it; and when fewer than two
arguments were supplied, `run` ends in `log.Fatal` with no directory created and
the file system untouched. -/
theorem run_cleanup (h : Host) (p : Proc) :
    (∀ dir, 2 ≤ p.Args.length → h.mkdirTemp = .ok dir →
      Getenv p.Environ "PROOT_NO_CLEANUP".toList ≠ "1".toList →
      (∃ err, (run h p).result = .returned err) ∧
      (run h p).result =
        (runBody h ⟨p.Args, p.Environ, p.fs.put dir (.dir 448)⟩ dir).result ∧
      (run h p).trace.count (.removeAll dir) = 1 ∧
      (run h p).trace.getLast? = some (.removeAll dir) ∧
      (∀ d, Event.removeAll d ∈ (run h p).trace → d = dir) ∧
      (dir ≠ [] → (run h p).cleanupErr = none →
        ∀ k, k = dir ∨ HasPrefix k (dir ++ ['/']) = true → (run h p).proc.fs.get k = none)) ∧
    (Getenv p.Environ "PROOT_NO_CLEANUP".toList = "1".toList →
      (∀ d, Event.removeAll d ∉ (run h p).trace) ∧
      (∀ dir, 2 ≤ p.Args.length → h.mkdirTemp = .ok dir →
        ((run h p).proc.fs = (unpackTarGz h.rootfs dir (p.fs.put dir (.dir 448))).1 ∨
          (run h p).proc.fs =
            h.childFs (unpackTarGz h.rootfs dir (p.fs.put dir (.dir 448))).1) ∧
        (unpackTarGz h.rootfs dir (p.fs.put dir (.dir 448))).1.get dir = some (.dir 448) ∧
        ((∀ fs, keepsDirs fs (h.childFs fs)) →
          (run h p).proc.fs.get dir = some (.dir 448)))) ∧
    (p.Args.length < 2 →
      (run h p).result = .fatal ∧ (run h p).proc.fs = p.fs ∧
      ∀ d, Event.mkdirTemp d ∉ (run h p).trace) := by
  refine ⟨fun dir h1 h2 h3 => run_removes_once h p dir h1 h2 h3,
    fun henv => ⟨run_keeps h p henv, fun dir h1 h2 => run_keeps_dir h p dir h1 h2 henv⟩, ?_⟩
  intro hargs
  rw [run_no_args h p hargs]
  exact ⟨rfl, rfl, fun d hd => by simp at hd⟩

/-- The uses of C6 on sample runs: a successful run of an unprivileged launcher
calls `os.RemoveAll` once, it succeeds, and the extracted file is gone; a run
with `PROOT_NO_CLEANUP=1` never calls it and the directory is still there; a
run without a target argument creates nothing. -/
theorem run_cleanup_witness :
    ((run (sampleHost (.exited 0) none) (sampleProc [])).trace.count
        (.removeAll "/tmp/rootfs1".toList) = 1 ∧
      (run (sampleHost (.exited 0) none) (sampleProc [])).proc.fs.get
        "/tmp/rootfs1/bin/true".toList = none) ∧
    ((∀ d, Event.removeAll d ∉ (run (sampleHost (.exited 0) none) (sampleProc ['1'])).trace) ∧
      (run (sampleHost (.exited 0) none) (sampleProc ['1'])).proc.fs.get
        "/tmp/rootfs1".toList = some (.dir 448)) ∧
    (run (sampleHost (.exited 0) none) ⟨["prog".toList], [], sampleFS⟩).result = .fatal :=
  ⟨⟨((run_cleanup (sampleHost (.exited 0) none) (sampleProc [])).1 "/tmp/rootfs1".toList
        (by decide) rfl (by decide)).2.2.1,
      ((run_cleanup (sampleHost (.exited 0) none) (sampleProc [])).1 "/tmp/rootfs1".toList
        (by decide) rfl (by decide)).2.2.2.2.2 (by decide) (by decide)
        "/tmp/rootfs1/bin/true".toList (Or.inr (by decide))⟩,
    ⟨((run_cleanup (sampleHost (.exited 0) none) (sampleProc ['1'])).2.1 (by decide)).1,
      (((run_cleanup (sampleHost (.exited 0) none) (sampleProc ['1'])).2.1 (by decide)).2
        "/tmp/rootfs1".toList (by decide) rfl).2.2 (fun fs => keepsDirs_refl fs)⟩,
    ((run_cleanup (sampleHost (.exited 0) none) ⟨["prog".toList], [], sampleFS⟩).2.2
      (by decide)).1⟩

/-- **C6 as stated fails.** The layer holds, next to `bin/true`, the directory
`d` of mode 0300 and the file `d/f`, and the launcher is not the superuser.  The
directory is created, the run succeeds and `os.RemoveAll` is called once, but it
cannot read `d`: it returns `EACCES`, which `run` drops, and the ephemeral
directory, `d` and `d/f` are still there when `run` has returned. -/
theorem run_cleanup_counterexample :
    Getenv (sampleProc []).Environ "PROOT_NO_CLEANUP".toList ≠ "1".toList ∧
    Event.mkdirTemp "/tmp/rootfs1".toList ∈ (run (lockedHost false) (sampleProc [])).trace ∧
    (run (lockedHost false) (sampleProc [])).result = .returned none ∧
    (run (lockedHost false) (sampleProc [])).trace.count (.removeAll "/tmp/rootfs1".toList) = 1 ∧
    (run (lockedHost false) (sampleProc [])).cleanupErr =
      some (.os .EACCES "/tmp/rootfs1/d".toList) ∧
    (run (lockedHost false) (sampleProc [])).proc.fs.get "/tmp/rootfs1".toList =
      some (.dir 448) ∧
    (run (lockedHost false) (sampleProc [])).proc.fs.get "/tmp/rootfs1/d".toList =
      some (.dir 192) ∧
    (run (lockedHost false) (sampleProc [])).proc.fs.get "/tmp/rootfs1/d/f".toList =
      some (.file 420 [1]) := by
  decide

/-! ### Exit status -/

theorem run_reaches_wait (h : Host) (p : Proc) (dir : Str)
    (hargs : 2 ≤ p.Args.length) (htmp : h.mkdirTemp = .ok dir)
    (hunpack : (unpackTarGz h.rootfs dir (p.fs.put dir (.dir 448))).2 = none)
    (hmem : h.memexecNew = none) (hstart : cmdStart h = none) :
    (run h p).result = .returned (cmdWait h.child h.watchErr) := by
  have hlen : ¬ p.Args.length < 2 := by omega
  have hbody : (runBody h ⟨p.Args, p.Environ, p.fs.put dir (.dir 448)⟩ dir).result =
      .returned (cmdWait h.child h.watchErr) := by
    unfold runBody
    rcases hu : unpackTarGz h.rootfs dir (p.fs.put dir (.dir 448)) with ⟨fs1, _ | e⟩
    · simp only [hmem, hstart]
      cases hw : cmdWait h.child h.watchErr <;> rfl
    · rw [hu] at hunpack
      simp at hunpack
  unfold run createTmp
  rw [if_neg hlen, htmp]
  simp only
  split
  · exact hbody
  · exact hbody

theorem mainExit_wait_exited (c : Nat) (w : Option Err) (hc : c ≤ 255)
    (hw : c ≠ 0 ∨ w = none) : mainExit (.returned (cmdWait (.exited c) w)) = c := by
  unfold cmdWait
  by_cases h0 : c = 0
  · subst h0
    rcases hw with h | h
    · exact absurd rfl h
    · subst h
      rfl
  · have hne : ¬ (ProcessState.exited c = ProcessState.exited 0) := by
      intro h
      injection h with h
      exact h0 h
    simp only [if_neg hne, mainExit, exitStatus, ProcessState.ExitCode]
    have h1 : c % 256 = c := Nat.mod_eq_of_lt (by omega)
    rw [h1, Int.ofNat_eq_coe]
    omega

theorem mainExit_wait_signaled (s : Nat) (w : Option Err) :
    mainExit (.returned (cmdWait (.signaled s) w)) = 255 := by
  unfold cmdWait
  have hne : ¬ (ProcessState.signaled s = ProcessState.exited 0) := by
    intro h
    cases h
  simp only [if_neg hne, mainExit, exitStatus, ProcessState.ExitCode]
  decide

/-- **C5 (amended).** When `run` returns `nil` the launcher exits 0.  On a run
that reaches `cmd.Wait`: a child that exits normally with a code `c` from 1 to
255 makes the launcher exit with exactly `c`; a child that exits with code 0
makes it exit 0 provided `watchCtx` reported no cancellation error to `Wait`;
and a child terminated by a signal makes it exit 255, which is neither 0 nor 1. -/
theorem main_exit_status (h : Host) (p : Proc) :
    ((run h p).result = .returned none → main h p = 0) ∧
    (∀ dir, 2 ≤ p.Args.length → h.mkdirTemp = .ok dir →
      (unpackTarGz h.rootfs dir (p.fs.put dir (.dir 448))).2 = none →
      h.memexecNew = none → cmdStart h = none →
      (∀ c, h.child = .exited c → c ≤ 255 → (c ≠ 0 ∨ h.watchErr = none) → main h p = c) ∧
      (∀ s, h.child = .signaled s → main h p = 255 ∧ main h p ≠ 0 ∧ main h p ≠ 1)) := by
  constructor
  · intro hr
    unfold main
    rw [hr]
    rfl
  · intro dir hargs htmp hunpack hmem hstart
    have hres := run_reaches_wait h p dir hargs htmp hunpack hmem hstart
    constructor
    · intro c hc hle hw
      unfold main
      rw [hres, hc]
      exact mainExit_wait_exited c h.watchErr hle hw
    · intro s hs
      have h255 : main h p = 255 := by
        unfold main
        rw [hres, hs]
        exact mainExit_wait_signaled s h.watchErr
      rw [h255]
      exact ⟨rfl, by decide, by decide⟩

/-- The uses of C5 on sample runs: a child that exits 1, as `/bin/false` does,
gives 1; a child killed by signal 9 gives 255. -/
theorem main_exit_status_witness :
    main (sampleHost (.exited 1) none) (sampleProc []) = 1 ∧
    main (sampleHost (.exited 0) none) (sampleProc []) = 0 ∧
    main (sampleHost (.signaled 9) (some .canceled)) (sampleProc []) = 255 :=
  ⟨((main_exit_status (sampleHost (.exited 1) none) (sampleProc [])).2 "/tmp/rootfs1".toList
      (by decide) rfl (by decide) rfl rfl).1 1 rfl (by decide) (Or.inl (by decide)),
    ((main_exit_status (sampleHost (.exited 0) none) (sampleProc [])).2 "/tmp/rootfs1".toList
      (by decide) rfl (by decide) rfl rfl).1 0 rfl (by decide) (Or.inr rfl),
    (((main_exit_status (sampleHost (.signaled 9) (some .canceled)) (sampleProc [])).2
      "/tmp/rootfs1".toList (by decide) rfl (by decide) rfl rfl).2 9 rfl).1⟩

/-- **C5 as stated fails.** The child exits normally with code 0 while
`watchCtx`, having called `cmd.Cancel` on the interrupt, reports
`context.Canceled`: `cmd.Wait` returns that error, `main` takes the `log.Fatal`
branch, and the launcher exits 1 instead of 0. -/
theorem main_exit_counterexample :
    (sampleHost (.exited 0) (some .canceled)).child = .exited 0 ∧
    Event.wait ∈ (run (sampleHost (.exited 0) (some .canceled)) (sampleProc [])).trace ∧
    (run (sampleHost (.exited 0) (some .canceled)) (sampleProc [])).result =
      .returned (some .canceled) ∧
    main (sampleHost (.exited 0) (some .canceled)) (sampleProc []) = 1 ∧
    main (sampleHost (.exited 0) (some .canceled)) (sampleProc []) ≠ 0 := by
  decide

/-! ### Cancellation -/

/-- **C7 fails on the code.** The command `run` configures keeps the `Cancel`
function `exec.CommandContext` installs, `Process.Kill`, so when the context is
cancelled while the child runs the first signal sent is SIGKILL, at once and
not after the 5-second `WaitDelay`; no graceful request is ever sent. -/
theorem cancel_kills_at_once (tmpDir : Str) (argv environ : List Str) (exitAfter : Option Nat) :
    (buildCmd tmpDir argv environ).WaitDelay = Second * 5 ∧
    (watchCtxSignals (buildCmd tmpDir argv environ) exitAfter).head? = some (0, .SIGKILL) ∧
    (∀ ts ∈ watchCtxSignals (buildCmd tmpDir argv environ) exitAfter, ts.2.graceful = false) := by
  refine ⟨rfl, rfl, ?_⟩
  intro ts hts
  unfold watchCtxSignals at hts
  have hwd : (buildCmd tmpDir argv environ).WaitDelay ≠ 0 := by
    show Second * 5 ≠ 0
    decide
  rw [if_neg hwd] at hts
  cases exitAfter with
  | none =>
    simp only [List.mem_cons, List.mem_singleton, List.not_mem_nil, or_false] at hts
    rcases hts with h | h <;> subst h <;> rfl
  | some d =>
    simp only [List.mem_cons] at hts
    rcases hts with h | h
    · subst h
      rfl
    · split at h
      · simp at h
      · simp only [List.mem_singleton] at h
        subst h
        rfl

/-! ### The extractor at the inputs where it leaves the specification -/

/-- **C1 fails on the code.** With `dstDir = /tmp/abc` the entry
`../../etc/passwd` is rejected with the path-escape error and nothing is
written, but the entry `../abcd/x` has the target `/tmp/abcd/x`, which is not
inside `/tmp/abc` component-wise and yet has it as a string prefix:
`unpackTarGz` returns no error and writes the file `/tmp/abcd/x`. -/
theorem unpackTarGz_sibling_escape :
    unpackTarGz (imageOf [regEntry "../../etc/passwd".toList 420 [1, 2]]) "/tmp/abc".toList
        sampleFS =
      (sampleFS, some (.pathEscape "/etc/passwd".toList "/tmp/abc".toList)) ∧
    Join ["/tmp/abc".toList, "../abcd/x".toList] = "/tmp/abcd/x".toList ∧
    isWithin "/tmp/abc".toList "/tmp/abcd/x".toList = false ∧
    filepathHasPrefix (Clean "/tmp/abcd/x".toList) (Clean "/tmp/abc".toList) = true ∧
    unpackTarGz (imageOf [regEntry "../abcd/x".toList 420 [1, 2]]) "/tmp/abc".toList sampleFS =
      (("/tmp/abcd/x".toList, .file 420 [1, 2]) :: sampleFS, none) := by
  decide

/-- **C2 fails on the code.** With `dstDir = /tmp/abc` the symlink entry `a`
with link text `../x` resolves, relative to its parent directory `/tmp/abc`, to
`/tmp/x` outside the destination; the code joins the link text onto the entry
path itself, gets `/tmp/abc/x`, returns no error and creates the symlink. -/
theorem unpackTarGz_symlink_escape :
    Join [parentOf (Join ["/tmp/abc".toList, "a".toList]), "../x".toList] = "/tmp/x".toList ∧
    isWithin "/tmp/abc".toList "/tmp/x".toList = false ∧
    Join [Join ["/tmp/abc".toList, "a".toList], "../x".toList] = "/tmp/abc/x".toList ∧
    unpackTarGz (imageOf [⟨⟨TypeSymlink, "a".toList, "../x".toList, 511⟩, [], none⟩])
        "/tmp/abc".toList sampleFS =
      (("/tmp/abc/a".toList, .symlink "../x".toList) :: sampleFS, none) := by
  decide

/-- **C3 fails on the code.** A layer that holds the file `f` twice, first with
three bytes and mode 0644, then with one byte and mode 0600: the second entry
is processed without error, and the file then holds the new byte followed by
the last two old bytes, with the first entry's mode, because the file is opened
without `O_TRUNC`. -/
theorem unpackTarGz_no_truncate :
    (O_CREATE ||| O_RDWR) &&& O_TRUNC = 0 ∧
    unpackTarGz (imageOf [regEntry "f".toList 420 [1, 2, 3], regEntry "f".toList 384 [9]])
        "/tmp/abc".toList sampleFS =
      (("/tmp/abc/f".toList, .file 420 [9, 2, 3]) :: sampleFS, none) := by
  decide

/-- **C8 as stated fails.** With `tmpDir = /tmp/rootfs1` and the target argument
`../../bin/sh` the third element of the argument list is `/bin/sh`, which is not
inside `/tmp/rootfs1`. -/
theorem buildArgs_counterexample :
    buildArgs "/tmp/rootfs1".toList ["prog".toList, "../../bin/sh".toList] =
      ["-b".toList, "/tmp/rootfs1/nix:/nix".toList, "/bin/sh".toList] ∧
    isWithin "/tmp/rootfs1".toList "/bin/sh".toList = false := by
  decide

/-! ### The argument list -/

/-- **C8 (amended).** For every `tmpDir` and every argument vector with at least
two elements, the argument list `run` builds is `-b`, `Join(tmpDir, "nix")`
followed by `:/nix`, `Join(tmpDir, argv[1])`, and then `argv[2:]` unchanged and
in order, so its length is `len(argv) + 1`; and its third element is a path
inside `tmpDir`, component-wise, whenever `tmpDir` is not empty and `argv[1]`
has no `..` element. -/
theorem buildArgs_spec (tmpDir : Str) (argv : List Str) (h2 : 2 ≤ argv.length) :
    buildArgs tmpDir argv =
      ["-b".toList, Join [tmpDir, "nix".toList] ++ ":/nix".toList, Join [tmpDir, argv[1]]] ++
        argv.drop 2 ∧
    (buildArgs tmpDir argv).length = argv.length + 1 ∧
    (buildArgs tmpDir argv)[2]? = some (Join [tmpDir, argv[1]]) ∧
    (tmpDir ≠ [] → ['.', '.'] ∉ splitSlash argv[1] →
      isWithin tmpDir (Join [tmpDir, argv[1]]) = true) := by
  have hget : argv.getD 1 [] = argv[1] := by
    rw [List.getD_eq_getElem?_getD, List.getElem?_eq_getElem (by omega)]
    rfl
  refine ⟨?_, ?_, ?_, ?_⟩
  · unfold buildArgs
    rw [hget]
  · unfold buildArgs
    simp only [List.length_append, List.length_cons, List.length_nil, List.length_drop]
    omega
  · unfold buildArgs
    rw [hget]
    simp
  · intro hdir hname
    exact Join_isWithin tmpDir argv[1] hdir hname

/-- The use of C8 on the command line `prog /bin/true -x 1`. -/
theorem buildArgs_spec_witness :
    (buildArgs "/tmp/rootfs1".toList
        ["prog".toList, "/bin/true".toList, "-x".toList, "1".toList]).length = 5 ∧
    Join ["/tmp/rootfs1".toList, "/bin/true".toList] = "/tmp/rootfs1/bin/true".toList ∧
    isWithin "/tmp/rootfs1".toList (Join ["/tmp/rootfs1".toList, "/bin/true".toList]) = true :=
  ⟨(buildArgs_spec "/tmp/rootfs1".toList
      ["prog".toList, "/bin/true".toList, "-x".toList, "1".toList] (by decide)).2.1,
    by decide,
    (buildArgs_spec "/tmp/rootfs1".toList
      ["prog".toList, "/bin/true".toList, "-x".toList, "1".toList] (by decide)).2.2.2
      (by decide) (by decide)⟩

/-! ### Uses of the extractor theorems on sample archives -/

/-- The uses of C4: an image without a layer entry, and an image whose first
layer entry is the one extracted although a second one follows. -/
theorem unpackTarGz_layer_witness :
    unpackTarGz
        (.stream [⟨⟨TypeReg, "manifest.json".toList, [], 420⟩, ⟨[], none⟩⟩,
          ⟨⟨TypeDir, "0a1b/layer.tar".toList, [], 493⟩, ⟨sampleLayer, none⟩⟩] none)
        "/tmp/abc".toList sampleFS = (sampleFS, some .layerNotFound) ∧
    unpackTarGz
        (.stream ([⟨⟨TypeReg, "manifest.json".toList, [], 420⟩, ⟨[], none⟩⟩] ++
          ⟨⟨TypeReg, "0a1b/layer.tar".toList, [], 420⟩, ⟨sampleLayer, none⟩⟩ ::
          [⟨⟨TypeReg, "2c3d/layer.tar".toList, [], 420⟩, ⟨[], none⟩⟩]) none)
        "/tmp/abc".toList sampleFS =
      extractEntries "/tmp/abc".toList sampleLayer none sampleFS :=
  ⟨(unpackTarGz_layer "/tmp/abc".toList sampleFS).1 _ (by decide),
    (unpackTarGz_layer "/tmp/abc".toList sampleFS).2 _ _ _ none (by decide) (by decide)⟩

/-- The use of C10: a hard-link entry between a directory and a regular file
ends the extraction with the unsupported-type error; the directory before it
was created and the file after it was not. -/
theorem unpackTarGz_unsupported_witness :
    unpackTarGz
        (imageOf ([⟨⟨TypeDir, "bin".toList, [], 493⟩, [], none⟩] ++
          ⟨⟨TypeLink, "bin/sh".toList, "bin/busybox".toList, 493⟩, [], none⟩ ::
          [regEntry "bin/true".toList 493 [1]]))
        "/tmp/abc".toList sampleFS =
      (("/tmp/abc/bin".toList, .dir 493) :: sampleFS,
        some (.unsupported ⟨TypeLink, "bin/sh".toList, "bin/busybox".toList, 493⟩)) :=
  unpackTarGz_unsupported _ none "/tmp/abc".toList
    [⟨⟨TypeDir, "bin".toList, [], 493⟩, [], none⟩]
    ⟨⟨TypeLink, "bin/sh".toList, "bin/busybox".toList, 493⟩, [], none⟩
    [regEntry "bin/true".toList 493 [1]] none sampleFS _
    rfl (by decide) (by decide) (by decide) (by decide) (by decide) (by decide)

/-- The use of C9 on a sample environment. -/
theorem buildEnvs_spec_witness :
    (buildEnvs "/tmp/rootfs1".toList
        ["HOME=/root".toList, "PATH=/usr/bin:/bin".toList, "PATHS=x".toList])[1]? =
      some "PATH=/tmp/rootfs1/bin:/usr/bin:/bin".toList ∧
    (buildEnvs "/tmp/rootfs1".toList
        ["HOME=/root".toList, "PATH=/usr/bin:/bin".toList, "PATHS=x".toList])[2]? =
      some "PATHS=x".toList :=
  ⟨by
    have h := ((buildEnvs_spec "/tmp/rootfs1".toList
      ["HOME=/root".toList, "PATH=/usr/bin:/bin".toList, "PATHS=x".toList]).2.1 1
      "PATH=/usr/bin:/bin".toList rfl).2 (by decide)
    have hv := (buildEnvs_spec "/tmp/rootfs1".toList
      ["HOME=/root".toList, "PATH=/usr/bin:/bin".toList, "PATHS=x".toList]).2.2.1
      ["HOME=/root".toList] "/usr/bin:/bin".toList ["PATHS=x".toList] rfl (by decide)
    rw [hv] at h
    exact h,
   ((buildEnvs_spec "/tmp/rootfs1".toList
      ["HOME=/root".toList, "PATH=/usr/bin:/bin".toList, "PATHS=x".toList]).2.1 2
      "PATHS=x".toList rfl).1 (by decide)⟩

end ProotBundle
